import Mathlib

/-!
Verification development for SILGenProlog.cpp: function prologue emission in
SILGen.  The embedding models the prologue state (basic-block arguments,
cleanup stack, variable locations, emitted instructions) explicitly and
translates the argument materializer (EmitBBArguments), the name-binding
visitor (ArgumentInitVisitor), the forwarding visitor (ArgumentForwardVisitor),
capture argument binding and the prologue orchestrator (emitProlog).
Fatal paths (llvm_unreachable, assertions) are modelled as `Except` errors.
-/

namespace SILGenProlog

/-- Parameter-passing convention tags (ParameterConvention). -/
inductive ParamConvention where
  | directDeallocating
  | directGuaranteed
  | indirectInGuaranteed
  | directUnowned
  | indirectInout
  | directOwned
  | indirectIn
  | indirectOut
deriving DecidableEq, Repr

/-- Canonical types as the prologue sees them: scalar leaves carrying their
lowering flags (loadable, trivial), ObjC-block function types, Optional
wrappers, inout types, the non-copyable Builtin.UnsafeValueBuffer marker type,
box types (used for captured-variable boxes), and tuples. -/
inductive CanType where
  | scalar (id : Nat) (loadable : Bool) (trivial : Bool)
  | blockFn
  | optionalTy (obj : CanType)
  | inoutTy (pointee : CanType)
  | builtinValueBuffer
  | boxOf (inner : CanType)
  | tupleTy (elts : List CanType)

mutual
/-- Structural boolean equality on canonical types (models SILType equality in
the visitType assertion). -/
def CanType.eqb : CanType → CanType → Bool
  | .scalar i l t, .scalar j m u => i == j && l == m && t == u
  | .blockFn, .blockFn => true
  | .optionalTy a, .optionalTy b => CanType.eqb a b
  | .inoutTy a, .inoutTy b => CanType.eqb a b
  | .builtinValueBuffer, .builtinValueBuffer => true
  | .boxOf a, .boxOf b => CanType.eqb a b
  | .tupleTy as, .tupleTy bs => CanType.eqbList as bs
  | _, _ => false
def CanType.eqbList : List CanType → List CanType → Bool
  | [], [] => true
  | a :: as, b :: bs => CanType.eqb a b && CanType.eqbList as bs
  | _, _ => false
end

mutual
/-- Type-lowering oracle: whether the lowered representation of a type is
register-passable.  A tuple is loadable exactly when all its elements are. -/
def CanType.isLoadable : CanType → Bool
  | .scalar _ l _ => l
  | .blockFn => true
  | .optionalTy obj => CanType.isLoadable obj
  | .inoutTy _ => true
  | .builtinValueBuffer => false
  | .boxOf _ => true
  | .tupleTy elts => CanType.isLoadableList elts
def CanType.isLoadableList : List CanType → Bool
  | [] => true
  | t :: ts => CanType.isLoadable t && CanType.isLoadableList ts
end

mutual
/-- Type-lowering oracle: whether the type needs no destruction. -/
def CanType.isTrivial : CanType → Bool
  | .scalar _ _ tr => tr
  | .blockFn => false
  | .optionalTy obj => CanType.isTrivial obj
  | .inoutTy _ => true
  | .builtinValueBuffer => true
  | .boxOf _ => false
  | .tupleTy elts => CanType.isTrivialList elts
def CanType.isTrivialList : List CanType → Bool
  | [] => true
  | t :: ts => CanType.isTrivial t && CanType.isTrivialList ts
end

mutual
/-- Number of scalar leaves in the recursive tuple flattening of a type. -/
def CanType.leafCount : CanType → Nat
  | .tupleTy elts => CanType.leafCountList elts
  | _ => 1
def CanType.leafCountList : List CanType → Nat
  | [] => 0
  | t :: ts => CanType.leafCount t + CanType.leafCountList ts
end

/-- Optional payload, as used by getAnyOptionalObjectType in visitType. -/
def CanType.anyOptionalObjectType : CanType → CanType
  | .optionalTy obj => obj
  | t => t

/-- Whether the type is a function type with block representation. -/
def CanType.isBlockType : CanType → Bool
  | .blockFn => true
  | _ => false

/-- One lowered parameter descriptor: representation type plus convention. -/
structure SILParamInfo where
  ty : CanType
  convention : ParamConvention

/-- SIL values produced by the prologue: basic-block arguments, aggregated
tuples, stack allocations, copies, block copies, and tuple element addresses. -/
inductive SILValue where
  | arg (id : Nat)
  | tupleVal (elts : List SILValue)
  | alloc (id : Nat)
  | copyVal (of : SILValue)
  | blockCopy (of : SILValue)
  | tupleElemAddr (base : SILValue) (idx : Nat)

/-- Cleanup obligations this file pushes on the cleanup stack. -/
inductive Cleanup where
  | releaseValue (v : SILValue)
  | writeBackToInOut (var : Nat) (inoutAddr : SILValue)
  | strongRelease (box : SILValue)
  | destroyValue (v : SILValue)

/-- A record on the cleanup stack; forwarding a cleanup deactivates it. -/
structure CleanupRec where
  id : Nat
  kind : Cleanup
  active : Bool

/-- Variable location: a value or address, optionally with an owning box. -/
structure VarLoc where
  value : SILValue
  box : Option SILValue := none

/-- Instructions emitted by the prologue (including cleanup actions emitted
when a scope pops). -/
inductive Instr where
  | retainValue (v : SILValue)
  | releaseValue (v : SILValue)
  | strongRelease (v : SILValue)
  | destroyValue (v : SILValue)
  | copyAddr (src dst : SILValue) (isTake isInit : Bool)
  | copyBlock (v : SILValue)
  | moveInto (v addr : SILValue)
  | copyIntoAddr (v addr : SILValue)
  | storeVal (v addr : SILValue)
  | tupleExtractAddr (base : SILValue) (idx : Nat)
  | debugValue (v : SILValue) (isAddr : Bool)
  | allocStack (id : Nat)

/-- Fatal failures: llvm_unreachable and assertion failures in the source. -/
inductive Fatal where
  | outConvention
  | descriptorQueueExhausted
  | typeMismatch
  | anyPatternInArgs
  | refutablePattern
deriving DecidableEq, Repr

/-- The per-function lowering state threaded through the prologue. -/
structure SGState where
  nextValueId : Nat := 0
  nextAllocId : Nat := 0
  nextCleanupId : Nat := 0
  blockArgs : List (Nat × CanType) := []
  cleanups : List CleanupRec := []
  varLocs : List (Nat × VarLoc) := []
  instrs : List Instr := []
  indirectReturnAddress : Option SILValue := none

/-- Append an emitted instruction. -/
def appendInstr (i : Instr) (s : SGState) : SGState :=
  { s with instrs := s.instrs ++ [i] }

/-- Create a fresh SILArgument on the entry block (new SILArgument(...)). -/
def createBBArg (ty : CanType) (s : SGState) : SILValue × SGState :=
  (.arg s.nextValueId,
   { s with nextValueId := s.nextValueId + 1,
            blockArgs := s.blockArgs ++ [(s.nextValueId, ty)] })

/-- Push a cleanup record on the cleanup stack, returning its handle. -/
def pushCleanup (k : Cleanup) (s : SGState) : Nat × SGState :=
  (s.nextCleanupId,
   { s with cleanups := ⟨s.nextCleanupId, k, true⟩ :: s.cleanups,
            nextCleanupId := s.nextCleanupId + 1 })

/-- Deactivate (forward) the cleanup with the given handle. -/
def deactivateCleanup (cid : Nat) (s : SGState) : SGState :=
  { s with cleanups :=
      s.cleanups.map (fun c => if c.id = cid then { c with active := false } else c) }

/-- Look up the location bound to a variable (VarLocs). -/
def lookupVarLoc (v : Nat) (s : SGState) : Option VarLoc :=
  (s.varLocs.find? (fun p => p.fst == v)).map (fun p => p.snd)

/-- Bind a variable to a location (VarLocs[vd] = loc). -/
def bindVarLoc (v : Nat) (loc : VarLoc) (s : SGState) : SGState :=
  { s with varLocs := (v, loc) :: s.varLocs }

/-- A managed value: a SIL value plus an optionally attached cleanup handle,
and a flag for lvalue (inout) representation. -/
structure ManagedValue where
  value : SILValue
  cleanup : Option Nat
  isLValue : Bool

/-- Managed value with no cleanup attached. -/
def ManagedValue.forUnmanaged (v : SILValue) : ManagedValue := ⟨v, none, false⟩

/-- Managed lvalue (inout address), no cleanup attached. -/
def ManagedValue.forLValue (v : SILValue) : ManagedValue := ⟨v, none, true⟩

/-- Whether a cleanup obligation is attached. -/
def ManagedValue.hasCleanup (m : ManagedValue) : Bool := m.cleanup.isSome

/-- Modelled from the spec: forwarding a managed value consumes (deactivates)
its attached cleanup and yields the raw value (ManagedValue::forward is
defined outside this file). -/
def ManagedValue.forward (m : ManagedValue) (s : SGState) : SILValue × SGState :=
  match m.cleanup with
  | none => (m.value, s)
  | some cid => (m.value, deactivateCleanup cid s)

/-- Modelled from the spec: deep-copy a value carrying no cleanup, producing
an independently owned copy with a fresh release cleanup attached
(ManagedValue::copyUnmanaged is defined outside this file). -/
def ManagedValue.copyUnmanaged (m : ManagedValue) (s : SGState) : ManagedValue × SGState :=
  let v := SILValue.copyVal m.value
  let s1 := appendInstr (.copyIntoAddr m.value v) s
  let (cid, s2) := pushCleanup (.releaseValue v) s1
  (⟨v, some cid, false⟩, s2)

/-- Modelled from the spec: move a managed value into a memory slot, consuming
its cleanup (ManagedValue::forwardInto is defined outside this file). -/
def ManagedValue.forwardInto (m : ManagedValue) (addr : SILValue) (s : SGState) : SGState :=
  let (v, s1) := m.forward s
  appendInstr (.moveInto v addr) s1

/-- Modelled from the spec: independently deep-copy a managed value into a
memory slot, leaving its ownership untouched (ManagedValue::copyInto is
defined outside this file). -/
def ManagedValue.copyInto (m : ManagedValue) (addr : SILValue) (s : SGState) : SGState :=
  appendInstr (.copyIntoAddr m.value addr) s

/-- Modelled from the spec: attach a release cleanup directly on the value and
return it as an owned managed value (SILGenFunction::emitManagedRValueWithCleanup
is defined outside this file). -/
def emitManagedRValueWithCleanup (v : SILValue) (s : SGState) : ManagedValue × SGState :=
  let (cid, s1) := pushCleanup (.releaseValue v) s
  (⟨v, some cid, false⟩, s1)

/-- Modelled from the spec: retain the value on entry and attach a matching
release cleanup (SILGenFunction::emitManagedRetain is defined outside this
file). -/
def emitManagedRetain (v : SILValue) (s : SGState) : ManagedValue × SGState :=
  let s1 := appendInstr (.retainValue v) s
  let (cid, s2) := pushCleanup (.releaseValue v) s1
  (⟨v, some cid, false⟩, s2)

/-- Modelled from the spec: allocate scratch memory for an address-only
aggregate (SILGenFunction::emitTemporaryAllocation is defined outside this
file). -/
def emitTemporaryAllocation (s : SGState) : SILValue × SGState :=
  (.alloc s.nextAllocId,
   { s with nextAllocId := s.nextAllocId + 1,
            instrs := s.instrs ++ [.allocStack s.nextAllocId] })

/-- Create a copy_block instruction (B.createCopyBlock). -/
def createCopyBlock (v : SILValue) (s : SGState) : SILValue × SGState :=
  (.blockCopy v, appendInstr (.copyBlock v) s)

/-- The ownership convention resolver (EmitBBArguments::getManagedValue):
maps the slot convention of a freshly created argument to the initial
ownership state of its managed value. -/
def getManagedValue (arg : SILValue) (_t : CanType) (pinfo : SILParamInfo)
    (s : SGState) : Except Fatal (ManagedValue × SGState) :=
  match pinfo.convention with
  | .directDeallocating => .ok (ManagedValue.forUnmanaged arg, s)
  | .directGuaranteed => .ok (ManagedValue.forUnmanaged arg, s)
  | .indirectInGuaranteed => .ok (ManagedValue.forUnmanaged arg, s)
  | .directUnowned => .ok (emitManagedRetain arg s)
  | .indirectInout => .ok (ManagedValue.forLValue arg, s)
  | .directOwned => .ok (emitManagedRValueWithCleanup arg s)
  | .indirectIn => .ok (emitManagedRValueWithCleanup arg s)
  | .indirectOut => .error .outConvention

/-- The scalar-leaf case of the argument materializer
(EmitBBArguments::visitType): pop one descriptor, check its representation
type, create one basic-block argument, resolve its ownership, and defensively
copy (possibly optional) ObjC block function arguments. -/
def visitTypeLeaf (fargs : Bool) (t : CanType) (ps : List SILParamInfo)
    (s : SGState) : Except Fatal (ManagedValue × List SILParamInfo × SGState) :=
  match ps with
  | [] => .error .descriptorQueueExhausted
  | pinfo :: rest =>
    if CanType.eqb t pinfo.ty then
      let (arg, s1) := createBBArg t s
      match getManagedValue arg t pinfo s1 with
      | .error e => .error e
      | .ok (mv, s2) =>
        if fargs && (CanType.anyOptionalObjectType t).isBlockType then
          let (bv, s3) := createCopyBlock mv.value s2
          let (mv2, s4) := emitManagedRValueWithCleanup bv s3
          .ok (mv2, rest, s4)
        else
          .ok (mv, rest, s2)
    else .error .typeMismatch

/-- Force one element of a loadable tuple to a fully owned state: an element
carrying a cleanup is forwarded (moved), an element without one is deep-copied
and the copy forwarded (the loop body in EmitBBArguments::visitTupleType). -/
def plusOneElemValue (m : ManagedValue) (s : SGState) : SILValue × SGState :=
  if m.hasCleanup then m.forward s
  else
    let (mc, s0) := m.copyUnmanaged s
    mc.forward s0

/-- Force each element of a loadable tuple to a fully owned state (the
element loop in EmitBBArguments::visitTupleType). -/
def plusOneElemValues : List ManagedValue → SGState → List SILValue × SGState
  | [], s => ([], s)
  | m :: ms, s =>
    let (v, s1) := plusOneElemValue m s
    let (vs, s2) := plusOneElemValues ms s1
    (v :: vs, s2)

/-- Move or copy one tuple element into its field slot of an address-only
tuple buffer (the loop body of the address-only path in
EmitBBArguments::visitTupleType). -/
def storeTupleElem (buf : SILValue) (i : Nat) (m : ManagedValue)
    (s : SGState) : SGState :=
  let eltAddr := SILValue.tupleElemAddr buf i
  let s1 := appendInstr (.tupleExtractAddr buf i) s
  if m.hasCleanup then m.forwardInto eltAddr s1 else m.copyInto eltAddr s1

/-- Move or copy tuple elements into an address-only tuple buffer (the
address-only loop in EmitBBArguments::visitTupleType). -/
def storeTupleElems (buf : SILValue) : Nat → List ManagedValue → SGState → SGState
  | _, [], s => s
  | i, m :: ms, s => storeTupleElems buf (i + 1) ms (storeTupleElem buf i m s)

mutual
/-- The argument materializer (EmitBBArguments): scalar leaves take one
descriptor each; tuple nodes recursively materialize their elements and
re-aggregate (register tuple if loadable, scratch buffer otherwise). -/
def visitArg (fargs : Bool) : CanType → List SILParamInfo → SGState →
    Except Fatal (ManagedValue × List SILParamInfo × SGState)
  | .tupleTy elts, ps, s =>
    match visitArgElems fargs elts ps s with
    | .error e => .error e
    | .ok (mvs, ps1, s1) =>
      if (CanType.tupleTy elts).isLoadable then
        if mvs.all (fun m => !m.hasCleanup) then
          .ok (ManagedValue.forUnmanaged (.tupleVal (mvs.map (fun m => m.value))),
               ps1, s1)
        else
          let (vals, s2) := plusOneElemValues mvs s1
          let (mv, s3) := emitManagedRValueWithCleanup (.tupleVal vals) s2
          .ok (mv, ps1, s3)
      else
        let (buf, s2) := emitTemporaryAllocation s1
        let s3 := storeTupleElems buf 0 mvs s2
        let (mv, s4) := emitManagedRValueWithCleanup buf s3
        .ok (mv, ps1, s4)
  | t, ps, s => visitTypeLeaf fargs t ps s
def visitArgElems (fargs : Bool) : List CanType → List SILParamInfo → SGState →
    Except Fatal (List ManagedValue × List SILParamInfo × SGState)
  | [], ps, s => .ok ([], ps, s)
  | t :: ts, ps, s =>
    match visitArg fargs t ps s with
    | .error e => .error e
    | .ok (mv, ps1, s1) =>
      match visitArgElems fargs ts ps1 s1 with
      | .error e => .error e
      | .ok (mvs, ps2, s2) => .ok (mv :: mvs, ps2, s2)
end

/-- A declared variable: identity, optional source name (none models the
anonymous binding written as an underscore), declared type, and mutability
flags. -/
structure VarDecl where
  id : Nat
  name : Option Nat
  ty : CanType
  isLet : Bool
  settable : Bool

/-- Binding patterns in argument position: named leaves, the anonymous
pattern, transparent paren/typed/var wrappers, tuples, and the refutable
patterns that may never appear here. -/
inductive Pattern where
  | named (vd : VarDecl)
  | anyP
  | paren (sub : Pattern)
  | typed (sub : Pattern) (ty : CanType)
  | varP (sub : Pattern)
  | tupleP (elts : List Pattern)
  | refutable

/-- Run one cleanup obligation (Cleanup emit methods): release or destroy the
value, strong-release a box, or write the inout shadow back to the original
address with an autogenerated copy_addr (CleanupWriteBackToInOut). -/
def emitCleanupAction (k : Cleanup) (s : SGState) : SGState :=
  match k with
  | .releaseValue v => appendInstr (.releaseValue v) s
  | .writeBackToInOut var inoutAddr =>
    match lookupVarLoc var s with
    | some loc => appendInstr (.copyAddr loc.value inoutAddr false false) s
    | none => s
  | .strongRelease box => appendInstr (.strongRelease box) s
  | .destroyValue v => appendInstr (.destroyValue v) s

/-- Emit the actions of the active cleanups among the popped records, in
stack order (most recently pushed first). -/
def emitActiveCleanups (recs : List CleanupRec) (s : SGState) : SGState :=
  recs.foldl (fun acc c => if c.active then emitCleanupAction c.kind acc else acc) s

/-- Close a scope: pop every cleanup above the saved depth, emitting the
active ones in reverse-of-push order (the Scope destructor). -/
def popScope (depth : Nat) (s : SGState) : SGState :=
  let k := s.cleanups.length - depth
  let s1 := emitActiveCleanups (s.cleanups.take k) s
  { s1 with cleanups := s.cleanups.drop k }

/-- Modelled from the spec: allocate a fresh local mutable slot for the
variable, bind the name to it, and register a destroy cleanup for the slot
(SILGenFunction::emitLocalVariableWithCleanup and the Initialization it
returns are defined outside this file). -/
def emitLocalVariableWithCleanup (vd : VarDecl) (s : SGState) : SILValue × SGState :=
  let addr := SILValue.alloc s.nextAllocId
  let s1 := { s with nextAllocId := s.nextAllocId + 1,
                     instrs := s.instrs ++ [.allocStack s.nextAllocId] }
  let s2 := bindVarLoc vd.id ⟨addr, none⟩ s1
  let (_, s3) := pushCleanup (.destroyValue addr) s2
  (addr, s3)

/-- Materialize the arguments for one named parameter and bind the variable
(ArgumentInitVisitor::makeArgumentIntoBinding): inout parameters get a local
shadow with a write-back cleanup (except the non-copyable
Builtin.UnsafeValueBuffer, bound directly); immutable bindings bind the
managed value directly; mutable bindings move or copy it into a fresh local
slot. -/
def makeArgumentIntoBinding (vd : VarDecl) (ps : List SILParamInfo)
    (s : SGState) : Except Fatal (List SILParamInfo × SGState) :=
  match visitArg true vd.ty ps s with
  | .error e => .error e
  | .ok (argrv, ps1, s1) =>
    match vd.ty with
    | .inoutTy pointee =>
      let address := argrv.value
      match pointee with
      | .builtinValueBuffer =>
        .ok (ps1, bindVarLoc vd.id ⟨address, none⟩ s1)
      | _ =>
        let (shadow, s2) := emitLocalVariableWithCleanup vd s1
        let s3 := appendInstr (.copyAddr address shadow false true) s2
        let (_, s4) := pushCleanup (.writeBackToInOut vd.id address) s3
        .ok (ps1, s4)
    | _ =>
      if vd.isLet then
        let s2 := bindVarLoc vd.id ⟨argrv.value, none⟩ s1
        let s3 := appendInstr (.debugValue argrv.value (!vd.ty.isLoadable)) s2
        .ok (ps1, s3)
      else
        let (slot, s2) := emitLocalVariableWithCleanup vd s1
        let s3 := if argrv.hasCleanup then argrv.forwardInto slot s2
                  else argrv.copyInto slot s2
        .ok (ps1, s3)

mutual
/-- The name-binding visitor (ArgumentInitVisitor): wrapper patterns are
transparent, tuples visit their elements in order, an unnamed binding is
materialized inside a short-lived scope that is popped immediately, a named
binding is materialized and bound, and refutable or anonymous patterns are
fatal. -/
def visitPattern : Pattern → List SILParamInfo → SGState →
    Except Fatal (List SILParamInfo × SGState)
  | .paren sub, ps, s => visitPattern sub ps s
  | .typed sub _, ps, s => visitPattern sub ps s
  | .varP sub, ps, s => visitPattern sub ps s
  | .tupleP elts, ps, s => visitPatternList elts ps s
  | .anyP, _, _ => .error .anyPatternInArgs
  | .refutable, _, _ => .error .refutablePattern
  | .named vd, ps, s =>
    match vd.name with
    | none =>
      match visitArg true vd.ty ps s with
      | .error e => .error e
      | .ok (_, ps1, s1) => .ok (ps1, popScope s.cleanups.length s1)
    | some _ => makeArgumentIntoBinding vd ps s
def visitPatternList : List Pattern → List SILParamInfo → SGState →
    Except Fatal (List SILParamInfo × SGState)
  | [], ps, s => .ok (ps, s)
  | p :: rest, ps, s =>
    match visitPattern p ps s with
    | .error e => .error e
    | .ok (ps1, s1) => visitPatternList rest ps1 s1
end

mutual
/-- Destructure a (possibly tuple) type into one fresh raw SILArgument per
scalar leaf, appending to the output list
(ArgumentForwardVisitor::makeArgument). -/
def forwardMakeArgument : CanType → List SILValue → SGState →
    List SILValue × SGState
  | .tupleTy elts, args, s => forwardMakeArgumentList elts args s
  | ty, args, s =>
    let (a, s1) := createBBArg ty s
    (args ++ [a], s1)
def forwardMakeArgumentList : List CanType → List SILValue → SGState →
    List SILValue × SGState
  | [], args, s => (args, s)
  | t :: ts, args, s =>
    let (args1, s1) := forwardMakeArgument t args s
    forwardMakeArgumentList ts args1 s1
end

mutual
/-- The forwarding visitor (ArgumentForwardVisitor): the same pattern walk as
the name-binding visitor, but it only materializes destructured raw argument
values, binding nothing and registering no cleanups. -/
def forwardVisit : Pattern → List SILValue → SGState →
    Except Fatal (List SILValue × SGState)
  | .paren sub, args, s => forwardVisit sub args s
  | .varP sub, args, s => forwardVisit sub args s
  | .typed sub ty, args, s =>
    match sub with
    | .named _ => .ok (forwardMakeArgument ty args s)
    | _ => forwardVisit sub args s
  | .tupleP elts, args, s => forwardVisitList elts args s
  | .anyP, _, _ => .error .anyPatternInArgs
  | .refutable, _, _ => .error .refutablePattern
  | .named vd, args, s => .ok (forwardMakeArgument vd.ty args s)
def forwardVisitList : List Pattern → List SILValue → SGState →
    Except Fatal (List SILValue × SGState)
  | [], args, s => .ok (args, s)
  | p :: rest, args, s =>
    match forwardVisit p args s with
    | .error e => .error e
    | .ok (args1, s1) => forwardVisitList rest args1 s1
end

/-- SILGenFunction::bindParametersForForwarding: run the forwarding visitor
with an empty output list. -/
def bindParametersForForwarding (p : Pattern) (s : SGState) :
    Except Fatal (List SILValue × SGState) :=
  forwardVisit p [] s

/-- Capture strategies (CaptureKind). -/
inductive CaptureKind where
  | noCapture
  | constant
  | box
  | storageAddress
deriving DecidableEq, Repr

/-- A captured variable together with its capture strategy (the strategy is
supplied by the external oracle getDeclCaptureKind). -/
structure CapturedValue where
  vd : VarDecl
  kind : CaptureKind

mutual
/-- Reconstitute a tuple-typed capture flattened across several argument
slots into one structured value
(emitReconstitutedConstantCaptureArguments). -/
def emitReconstitutedConstantCaptureArguments : CanType → SGState →
    SILValue × SGState
  | .tupleTy elts, s =>
    let (vals, s1) := emitReconstitutedList elts s
    (.tupleVal vals, s1)
  | ty, s => createBBArg ty s
def emitReconstitutedList : List CanType → SGState → List SILValue × SGState
  | [], s => ([], s)
  | t :: ts, s =>
    let (v, s1) := emitReconstitutedConstantCaptureArguments t s
    let (vs, s2) := emitReconstitutedList ts s1
    (v :: vs, s2)
end

/-- Modelled from the spec: register a destroy cleanup for a fully owned
capture value (SILGenFunction::enterDestroyCleanup is defined outside this
file). -/
def enterDestroyCleanup (v : SILValue) (s : SGState) : SGState :=
  (pushCleanup (.destroyValue v) s).snd

/-- Bind one captured variable (emitCaptureArguments): by value with tuple
reconstitution (storing into a temporary when the variable is settable and
registering a destroy cleanup unless trivial), as a box-plus-address pair
with a strong-release cleanup on the box, or as a raw storage address with no
cleanup. -/
def emitCaptureArguments (capture : CapturedValue) (s : SGState) : SGState :=
  let vd := capture.vd
  match capture.kind with
  | .noCapture => s
  | .constant =>
    let ty := vd.ty
    let (val0, s1) := emitReconstitutedConstantCaptureArguments ty s
    let (val, s2) :=
      if vd.settable then
        let (addr, s1a) := emitTemporaryAllocation s1
        let s1b := appendInstr (.storeVal val0 addr) s1a
        (addr, s1b)
      else (val0, s1)
    let s3 := bindVarLoc vd.id ⟨val, none⟩ s2
    if ty.isTrivial then s3 else enterDestroyCleanup val s3
  | .box =>
    let (boxArg, s1) := createBBArg (.boxOf vd.ty) s
    let (addrArg, s2) := createBBArg vd.ty s1
    let s3 := bindVarLoc vd.id ⟨addrArg, some boxArg⟩ s2
    (pushCleanup (.strongRelease boxArg) s3).snd
  | .storageAddress =>
    let (addrArg, s1) := createBBArg vd.ty s
    bindVarLoc vd.id ⟨addrArg, none⟩ s1

/-- Initial descriptor queue of the name-binding visitor: the constructor of
ArgumentInitVisitor slices a leading indirect-result descriptor off the
lowered parameter list. -/
def initialParamQueue (fparams : List SILParamInfo) : List SILParamInfo :=
  match fparams with
  | pinfo :: rest =>
    if pinfo.convention = .indirectOut then rest else fparams
  | [] => []

/-- The prologue orchestrator (SILGenFunction::emitProlog): materialize the
indirect-return slot when the result type is address-only, then run the
name-binding visitor over the parameter patterns in reverse declaration
order. -/
def emitProlog (fparams : List SILParamInfo) (paramPatterns : List Pattern)
    (resultType : CanType) (s : SGState) :
    Except Fatal (List SILParamInfo × SGState) :=
  let s1 :=
    if resultType.isLoadable then s
    else
      let (ret, s0) := createBBArg resultType s
      { s0 with indirectReturnAddress := some ret }
  visitPatternList paramPatterns.reverse (initialParamQueue fparams) s1

/-- The closure-entry prologue (SILGenFunction::emitProlog with a closure
reference): run the base prologue, then append the capture arguments. -/
def emitPrologWithCaptures (fparams : List SILParamInfo)
    (paramPatterns : List Pattern) (resultType : CanType)
    (captures : List CapturedValue) (s : SGState) :
    Except Fatal (List SILParamInfo × SGState) :=
  match emitProlog fparams paramPatterns resultType s with
  | .error e => .error e
  | .ok (ps1, s1) =>
    .ok (ps1, captures.foldl (fun acc c => emitCaptureArguments c acc) s1)


/-- All cleanup ids on the stack are below the fresh-id counter. -/
def CleanupIdsBounded (s : SGState) : Prop :=
  ∀ c ∈ s.cleanups, c.id < s.nextCleanupId

/-- Any decomposition of the cleanup stack into newer records (ids at least n)
atop an older suffix (ids below n) survives to the later state with the older
suffix untouched. -/
def PreservesLowCleanups (n : Nat) (s s1 : SGState) : Prop :=
  ∀ pre suf, s.cleanups = pre ++ suf → (∀ c ∈ pre, n ≤ c.id) →
    (∀ c ∈ suf, c.id < n) →
    ∃ pre2, s1.cleanups = pre2 ++ suf ∧ ∀ c ∈ pre2, n ≤ c.id

/-- State evolution contract of the materializer relative to a base counter b:
the cleanup-id counter grows, variable bindings are untouched, block arguments
only get appended, boundedness of cleanup ids is preserved, and cleanups older
than any n at most b survive untouched. -/
def EvolvesFrom (b : Nat) (s s1 : SGState) : Prop :=
  s.nextCleanupId ≤ s1.nextCleanupId ∧
  s1.varLocs = s.varLocs ∧
  (∃ newA, s1.blockArgs = s.blockArgs ++ newA) ∧
  (CleanupIdsBounded s → CleanupIdsBounded s1) ∧
  (∀ n, n ≤ b → PreservesLowCleanups n s s1)

mutual
/-- Statement helper: the scalar-leaf argument entries (fresh id, leaf type)
materialized for one structural type, in order, starting at a given id. -/
def leafEntries : CanType → Nat → List (Nat × CanType)
  | .tupleTy elts, n => leafEntriesList elts n
  | t, n => [(n, t)]
def leafEntriesList : List CanType → Nat → List (Nat × CanType)
  | [], _ => []
  | t :: ts, n => leafEntries t n ++ leafEntriesList ts (n + CanType.leafCount t)
end

mutual
/-- Statement helper: the structured value reassembling consecutive argument
slots according to the shape of a type, starting at a given slot id. -/
def reconSpec : CanType → Nat → SILValue
  | .tupleTy elts, n => .tupleVal (reconSpecList elts n)
  | _, n => .arg n
def reconSpecList : List CanType → Nat → List SILValue
  | [], _ => []
  | t :: ts, n => reconSpec t n :: reconSpecList ts (n + CanType.leafCount t)
end

mutual
/-- Statement helper: the scalar leaves of a structured value, in order. -/
def flattenValue : SILValue → List SILValue
  | .tupleVal elts => flattenValueList elts
  | v => [v]
def flattenValueList : List SILValue → List SILValue
  | [] => []
  | v :: vs => flattenValue v ++ flattenValueList vs
end

mutual
/-- Statement helper: how many raw argument values the forwarding visitor
materializes for a pattern (one per scalar leaf of each leaf type it visits). -/
def forwardCount : Pattern → Nat
  | .paren sub => forwardCount sub
  | .varP sub => forwardCount sub
  | .typed sub ty =>
    match sub with
    | .named _ => CanType.leafCount ty
    | _ => forwardCount sub
  | .tupleP elts => forwardCountList elts
  | .named vd => CanType.leafCount vd.ty
  | .anyP => 0
  | .refutable => 0
def forwardCountList : List Pattern → Nat
  | [] => 0
  | p :: rest => forwardCount p + forwardCountList rest
end

mutual
/-- Statement helper: the argument entries the forwarding visitor creates for
a pattern, in pattern order, starting at a given id. -/
def fwdEntries : Pattern → Nat → List (Nat × CanType)
  | .paren sub, n => fwdEntries sub n
  | .varP sub, n => fwdEntries sub n
  | .typed sub ty, n =>
    match sub with
    | .named _ => leafEntries ty n
    | _ => fwdEntries sub n
  | .tupleP elts, n => fwdEntriesList elts n
  | .named vd, n => leafEntries vd.ty n
  | .anyP, _ => []
  | .refutable, _ => []
def fwdEntriesList : List Pattern → Nat → List (Nat × CanType)
  | [], _ => []
  | p :: rest, n => fwdEntries p n ++ fwdEntriesList rest (n + forwardCount p)
end

/-- A well-formed descriptor queue for the ownership resolver: no slot carries
the out convention. -/
def NoOutConvention (ps : List SILParamInfo) : Prop :=
  ∀ pinfo ∈ ps, pinfo.convention ≠ .indirectOut

theorem visitTypeLeaf_consumes (fargs : Bool) (t : CanType) (ps ps1 : List SILParamInfo)
    (s s1 : SGState) (mv : ManagedValue)
    (h : visitTypeLeaf fargs t ps s = .ok (mv, ps1, s1)) :
    1 ≤ ps.length ∧ ps1 = ps.drop 1 := by
  cases ps with
  | nil => simp [visitTypeLeaf] at h
  | cons pinfo rest =>
    simp only [visitTypeLeaf] at h
    simp only [List.length_cons, List.drop_succ_cons, List.drop_zero]
    refine ⟨by omega, ?_⟩
    by_cases he : CanType.eqb t pinfo.ty
    · rw [if_pos he] at h
      cases hg : getManagedValue (createBBArg t s).fst t pinfo (createBBArg t s).snd with
      | error e =>
        rw [show (createBBArg t s) = ((createBBArg t s).fst, (createBBArg t s).snd) from rfl, hg] at h
        simp at h
      | ok r =>
        rw [show (createBBArg t s) = ((createBBArg t s).fst, (createBBArg t s).snd) from rfl, hg] at h
        obtain ⟨mv0, s2⟩ := r
        simp only at h
        split at h
        · simp only [Except.ok.injEq, Prod.mk.injEq] at h
          exact h.2.1.symm
        · simp only [Except.ok.injEq, Prod.mk.injEq] at h
          exact h.2.1.symm
    · rw [if_neg he] at h; simp at h

mutual
theorem visitArg_consumes (fargs : Bool) (t : CanType) (ps ps1 : List SILParamInfo)
    (s s1 : SGState) (mv : ManagedValue)
    (h : visitArg fargs t ps s = .ok (mv, ps1, s1)) :
    CanType.leafCount t ≤ ps.length ∧ ps1 = ps.drop (CanType.leafCount t) := by
  cases t with
  | tupleTy elts =>
    rw [visitArg] at h
    cases hevs : visitArgElems fargs elts ps s with
    | error e => rw [hevs] at h; simp at h
    | ok r =>
      obtain ⟨mvs, ps1a, s1a⟩ := r
      rw [hevs] at h
      simp only at h
      have ih := visitArgElems_consumes fargs elts ps ps1a s s1a mvs hevs
      simp only [CanType.leafCount]
      have hps : ps1 = ps1a := by
        split at h
        · split at h
          · simp only [Except.ok.injEq, Prod.mk.injEq] at h
            exact h.2.1.symm
          · rcases hpv : plusOneElemValues mvs s1a with ⟨vals, s2⟩
            rw [hpv] at h
            simp only [emitManagedRValueWithCleanup, pushCleanup, Except.ok.injEq,
              Prod.mk.injEq] at h
            exact h.2.1.symm
        · simp only [emitTemporaryAllocation, emitManagedRValueWithCleanup, pushCleanup,
            Except.ok.injEq, Prod.mk.injEq] at h
          exact h.2.1.symm
      exact hps ▸ ih
  | scalar i l tr =>
    simp only [visitArg] at h
    exact visitTypeLeaf_consumes _ _ _ _ _ _ _ h
  | blockFn =>
    simp only [visitArg] at h
    exact visitTypeLeaf_consumes _ _ _ _ _ _ _ h
  | optionalTy obj =>
    simp only [visitArg] at h
    exact visitTypeLeaf_consumes _ _ _ _ _ _ _ h
  | inoutTy pointee =>
    simp only [visitArg] at h
    exact visitTypeLeaf_consumes _ _ _ _ _ _ _ h
  | builtinValueBuffer =>
    simp only [visitArg] at h
    exact visitTypeLeaf_consumes _ _ _ _ _ _ _ h
  | boxOf inner =>
    simp only [visitArg] at h
    exact visitTypeLeaf_consumes _ _ _ _ _ _ _ h

theorem visitArgElems_consumes (fargs : Bool) (ts : List CanType)
    (ps ps1 : List SILParamInfo) (s s1 : SGState) (mvs : List ManagedValue)
    (h : visitArgElems fargs ts ps s = .ok (mvs, ps1, s1)) :
    CanType.leafCountList ts ≤ ps.length ∧ ps1 = ps.drop (CanType.leafCountList ts) := by
  cases ts with
  | nil =>
    rw [visitArgElems] at h
    simp only [Except.ok.injEq, Prod.mk.injEq] at h
    simp [CanType.leafCountList, h.2.1.symm]
  | cons t rest =>
    rw [visitArgElems] at h
    cases hv : visitArg fargs t ps s with
    | error e => rw [hv] at h; simp at h
    | ok r =>
      obtain ⟨mv0, psA, sA⟩ := r
      rw [hv] at h
      simp only at h
      cases hvs : visitArgElems fargs rest psA sA with
      | error e => rw [hvs] at h; simp at h
      | ok r2 =>
        obtain ⟨mvsB, psB, sB⟩ := r2
        rw [hvs] at h
        simp only [Except.ok.injEq, Prod.mk.injEq] at h
        obtain ⟨_, hps, hs⟩ := h
        have ih1 := visitArg_consumes fargs t ps psA s sA mv0 hv
        have ih2 := visitArgElems_consumes fargs rest psA psB sA sB mvsB hvs
        subst hps hs
        simp only [CanType.leafCountList]
        constructor
        · have := ih1.1
          have h2 := ih2.1
          rw [ih1.2, List.length_drop] at h2
          omega
        · rw [ih2.2, ih1.2, List.drop_drop]
end

theorem evolvesFrom_refl (b : Nat) (s : SGState) : EvolvesFrom b s s := by
  refine ⟨le_rfl, rfl, ⟨[], by simp⟩, fun h => h, fun n _ pre suf hdec hpre hsuf => ⟨pre, hdec, hpre⟩⟩

theorem evolvesFrom_trans {b : Nat} {s sA sB : SGState}
    (h1 : EvolvesFrom b s sA) (h2 : EvolvesFrom b sA sB) : EvolvesFrom b s sB := by
  obtain ⟨n1, v1, ⟨a1, ba1⟩, bd1, p1⟩ := h1
  obtain ⟨n2, v2, ⟨a2, ba2⟩, bd2, p2⟩ := h2
  refine ⟨le_trans n1 n2, v2.trans v1, ⟨a1 ++ a2, by rw [ba2, ba1, List.append_assoc]⟩,
    fun h => bd2 (bd1 h), ?_⟩
  intro n hn pre suf hdec hpre hsuf
  obtain ⟨preA, hdecA, hpreA⟩ := p1 n hn pre suf hdec hpre hsuf
  exact p2 n hn preA suf hdecA hpreA hsuf

theorem evolvesFrom_mono {b b2 : Nat} {s s1 : SGState} (hb : b2 ≤ b)
    (h : EvolvesFrom b s s1) : EvolvesFrom b2 s s1 :=
  ⟨h.1, h.2.1, h.2.2.1, h.2.2.2.1, fun n hn => h.2.2.2.2 n (le_trans hn hb)⟩

theorem evolvesFrom_of_cleanups_eq {b : Nat} {s s1 : SGState}
    (hc : s1.cleanups = s.cleanups) (hn : s1.nextCleanupId = s.nextCleanupId)
    (hv : s1.varLocs = s.varLocs) (hba : ∃ newA, s1.blockArgs = s.blockArgs ++ newA) :
    EvolvesFrom b s s1 := by
  refine ⟨le_of_eq hn.symm, hv, hba, ?_, ?_⟩
  · intro h c hc2
    rw [hc] at hc2
    rw [hn]
    exact h c hc2
  · intro n _ pre suf hdec hpre hsuf
    exact ⟨pre, hc ▸ hdec, hpre⟩

theorem evolvesFrom_appendInstr (b : Nat) (i : Instr) (s : SGState) :
    EvolvesFrom b s (appendInstr i s) :=
  evolvesFrom_of_cleanups_eq rfl rfl rfl ⟨[], by simp [appendInstr]⟩

theorem evolvesFrom_createBBArg (b : Nat) (ty : CanType) (s : SGState) :
    EvolvesFrom b s (createBBArg ty s).snd :=
  evolvesFrom_of_cleanups_eq rfl rfl rfl ⟨[(s.nextValueId, ty)], rfl⟩

theorem evolvesFrom_temporaryAllocation (b : Nat) (s : SGState) :
    EvolvesFrom b s (emitTemporaryAllocation s).snd :=
  evolvesFrom_of_cleanups_eq rfl rfl rfl ⟨[], by simp [emitTemporaryAllocation]⟩

theorem evolvesFrom_pushCleanup (b : Nat) (k : Cleanup) (s : SGState)
    (hb : b ≤ s.nextCleanupId) : EvolvesFrom b s (pushCleanup k s).snd := by
  refine ⟨by simp [pushCleanup], rfl, ⟨[], by simp [pushCleanup]⟩, ?_, ?_⟩
  · intro h c hc
    simp only [pushCleanup, List.mem_cons] at hc
    rcases hc with rfl | hc
    · simp [pushCleanup]
    · simp only [pushCleanup]
      exact Nat.lt_succ_of_lt (h c hc)
  · intro n hn pre suf hdec hpre hsuf
    refine ⟨⟨s.nextCleanupId, k, true⟩ :: pre, ?_, ?_⟩
    · simp [pushCleanup, hdec]
    · intro c hc
      rcases List.mem_cons.mp hc with rfl | hc
      · exact le_trans hn hb
      · exact hpre c hc

theorem deactivate_id_eq (cid : Nat) (c : CleanupRec) :
    ((if c.id = cid then { c with active := false } else c) : CleanupRec).id = c.id := by
  split <;> rfl

theorem evolvesFrom_deactivate (b cid : Nat) (s : SGState) (hb : b ≤ cid) :
    EvolvesFrom b s (deactivateCleanup cid s) := by
  refine ⟨le_rfl, rfl, ⟨[], by simp [deactivateCleanup]⟩, ?_, ?_⟩
  · intro h c hc
    simp only [deactivateCleanup, List.mem_map] at hc
    obtain ⟨c0, hc0, rfl⟩ := hc
    rw [deactivate_id_eq]
    exact h c0 hc0
  · intro n hn pre suf hdec hpre hsuf
    refine ⟨pre.map (fun c => if c.id = cid then { c with active := false } else c), ?_, ?_⟩
    · simp only [deactivateCleanup, hdec, List.map_append]
      congr 1
      apply List.map_congr_left ?_ |>.trans (List.map_id _)
      intro c hc
      have : c.id < n := hsuf c hc
      have : ¬ (c.id = cid) := by omega
      simp [this]
    · intro c hc
      simp only [List.mem_map] at hc
      obtain ⟨c0, hc0, rfl⟩ := hc
      rw [deactivate_id_eq]
      exact hpre c0 hc0



theorem evolvesFrom_pushShape (b : Nat) {s s2 : SGState} (k : Cleanup)
    (hc : s2.cleanups = ⟨s.nextCleanupId, k, true⟩ :: s.cleanups)
    (hn : s2.nextCleanupId = s.nextCleanupId + 1)
    (hv : s2.varLocs = s.varLocs)
    (hba : ∃ newA, s2.blockArgs = s.blockArgs ++ newA)
    (hb : b ≤ s.nextCleanupId) : EvolvesFrom b s s2 := by
  refine ⟨by omega, hv, hba, ?_, ?_⟩
  · intro h c hcm
    rw [hc] at hcm
    rcases List.mem_cons.mp hcm with rfl | hcm
    · simp; omega
    · have := h c hcm
      omega
  · intro n hn2 pre suf hdec hpre hsuf
    refine ⟨⟨s.nextCleanupId, k, true⟩ :: pre, by simp [hc, hdec], ?_⟩
    intro c hcm
    rcases List.mem_cons.mp hcm with rfl | hcm
    · exact le_trans hn2 hb
    · exact hpre c hcm

theorem getManagedValue_state (arg : SILValue) (t : CanType) (pinfo : SILParamInfo)
    (s : SGState) (mv : ManagedValue) (s2 : SGState)
    (h : getManagedValue arg t pinfo s = .ok (mv, s2)) :
    mv.value = arg ∧
    s2.nextValueId = s.nextValueId ∧ s2.nextAllocId = s.nextAllocId ∧
    s2.blockArgs = s.blockArgs ∧ s2.varLocs = s.varLocs ∧
    ((mv.cleanup = none ∧ s2 = s) ∨
     (mv.cleanup = some s.nextCleanupId ∧
      s2.nextCleanupId = s.nextCleanupId + 1 ∧
      s2.cleanups = ⟨s.nextCleanupId, .releaseValue arg, true⟩ :: s.cleanups)) := by
  obtain ⟨ty0, conv⟩ := pinfo
  cases conv <;>
    simp only [getManagedValue, emitManagedRetain, emitManagedRValueWithCleanup,
      pushCleanup, appendInstr, ManagedValue.forUnmanaged, ManagedValue.forLValue,
      Except.ok.injEq, Prod.mk.injEq] at h <;>
    obtain ⟨rfl, rfl⟩ := h <;> simp



theorem visitTypeLeaf_state (fargs : Bool) (t : CanType) (ps ps1 : List SILParamInfo)
    (s s1 : SGState) (mv : ManagedValue)
    (h : visitTypeLeaf fargs t ps s = .ok (mv, ps1, s1)) :
    EvolvesFrom s.nextCleanupId s s1 ∧
    (∀ cid, mv.cleanup = some cid →
       s.nextCleanupId ≤ cid ∧ cid < s1.nextCleanupId ∧
       s1.cleanups.head? = some ⟨cid, .releaseValue mv.value, true⟩) ∧
    ((fargs && (CanType.anyOptionalObjectType t).isBlockType) = false →
       mv.value = .arg s.nextValueId) := by
  cases ps with
  | nil => simp [visitTypeLeaf] at h
  | cons pinfo rest =>
    simp only [visitTypeLeaf] at h
    split at h
    case isFalse => simp at h
    case isTrue heq =>
      rw [show (createBBArg t s) = ((createBBArg t s).fst, (createBBArg t s).snd) from rfl] at h
      simp only at h
      cases hg : getManagedValue (createBBArg t s).fst t pinfo (createBBArg t s).snd with
      | error e => rw [hg] at h; simp at h
      | ok r =>
        rw [hg] at h
        obtain ⟨mv0, s2⟩ := r
        simp only at h
        obtain ⟨hval, hnv, hna, hba, hvl, hdisj⟩ :=
          getManagedValue_state _ _ _ _ _ _ hg
        have hCnext : (createBBArg t s).snd.nextCleanupId = s.nextCleanupId := rfl
        have hCclean : (createBBArg t s).snd.cleanups = s.cleanups := rfl
        have hCvl : (createBBArg t s).snd.varLocs = s.varLocs := rfl
        have hCfst : (createBBArg t s).fst = .arg s.nextValueId := rfl
        have hEC : EvolvesFrom s.nextCleanupId s (createBBArg t s).snd :=
          evolvesFrom_createBBArg _ _ _
        have hE2 : EvolvesFrom s.nextCleanupId s s2 := by
          rcases hdisj with ⟨_, rfl⟩ | ⟨hcl, hnx, hcs⟩
          · exact hEC
          · exact evolvesFrom_trans hEC
              (evolvesFrom_pushShape _ _ (by rw [hcs, hCclean, hCnext])
                (by rw [hnx, hCnext]) (by rw [hvl, hCvl])
                ⟨[], by simp [hba]⟩ (le_of_eq hCnext.symm))
        split at h
        case isTrue hblk =>
          simp only [createCopyBlock, emitManagedRValueWithCleanup, pushCleanup,
            appendInstr, Except.ok.injEq, Prod.mk.injEq] at h
          obtain ⟨rfl, rfl, rfl⟩ := h
          refine ⟨?_, ?_, ?_⟩
          · refine evolvesFrom_trans hE2 (evolvesFrom_trans
              (evolvesFrom_appendInstr _ (.copyBlock mv0.value) s2) ?_)
            refine evolvesFrom_pushShape _ _ rfl rfl rfl ⟨[], by simp [appendInstr]⟩ ?_
            simpa [appendInstr] using hE2.1
          · intro cid hcid
            simp only [Option.some.injEq] at hcid
            subst hcid
            refine ⟨by simpa [appendInstr] using hE2.1, by simp [appendInstr],
              by simp [appendInstr]⟩
          · intro hnb
            rw [hnb] at hblk
            cases hblk
        case isFalse hblk =>
          simp only [Except.ok.injEq, Prod.mk.injEq] at h
          obtain ⟨rfl, rfl, rfl⟩ := h
          refine ⟨hE2, ?_, fun _ => by rw [hval, hCfst]⟩
          intro cid hcid
          rcases hdisj with ⟨hnone, _⟩ | ⟨hsome, hnx, hcs⟩
          · rw [hnone] at hcid; cases hcid
          · rw [hsome] at hcid
            rw [Option.some.injEq] at hcid
            subst hcid
            rw [hCnext] at hsome hnx hcs ⊢
            refine ⟨le_rfl, by omega, ?_⟩
            rw [hcs, hCclean, hval]
            rfl



theorem deactivate_makes_inactive (cid : Nat) (s : SGState) :
    ∀ c ∈ (deactivateCleanup cid s).cleanups, c.id = cid → c.active = false := by
  intro c hc hid
  simp only [deactivateCleanup, List.mem_map] at hc
  obtain ⟨c0, hc0, rfl⟩ := hc
  by_cases he : c0.id = cid
  · simp [he]
  · rw [deactivate_id_eq] at hid
    exact absurd hid he

theorem inactive_preserved_deactivate (cid cid2 : Nat) (s : SGState)
    (h0 : ∀ c ∈ s.cleanups, c.id = cid → c.active = false) :
    ∀ c ∈ (deactivateCleanup cid2 s).cleanups, c.id = cid → c.active = false := by
  intro c hc hid
  simp only [deactivateCleanup, List.mem_map] at hc
  obtain ⟨c0, hc0, rfl⟩ := hc
  by_cases he : c0.id = cid2
  · simp [he]
  · simp only [he, if_false]
    rw [deactivate_id_eq] at hid
    · exact h0 c0 hc0 hid

theorem inactive_preserved_push (cid : Nat) (k : Cleanup) (s : SGState)
    (hlt : cid < s.nextCleanupId)
    (h0 : ∀ c ∈ s.cleanups, c.id = cid → c.active = false) :
    ∀ c ∈ (pushCleanup k s).snd.cleanups, c.id = cid → c.active = false := by
  intro c hc hid
  simp only [pushCleanup, List.mem_cons] at hc
  rcases hc with rfl | hc
  · simp at hid; omega
  · exact h0 c hc hid



theorem plusOneElemValue_next_mono (m : ManagedValue) (s : SGState) :
    s.nextCleanupId ≤ (plusOneElemValue m s).snd.nextCleanupId := by
  by_cases hm : m.hasCleanup
  · rcases hcl : m.cleanup with _ | cid <;>
      simp [plusOneElemValue, hm, ManagedValue.forward, hcl, deactivateCleanup]
  · simp [plusOneElemValue, hm, ManagedValue.copyUnmanaged, ManagedValue.forward,
      pushCleanup, appendInstr, deactivateCleanup]

theorem plusOneElemValue_keeps_inactive (cid : Nat) (m : ManagedValue) (s : SGState)
    (hlt : cid < s.nextCleanupId)
    (h0 : ∀ c ∈ s.cleanups, c.id = cid → c.active = false) :
    ∀ c ∈ (plusOneElemValue m s).snd.cleanups, c.id = cid → c.active = false := by
  by_cases hm : m.hasCleanup
  · rcases hcl : m.cleanup with _ | cid2
    · simp [ManagedValue.hasCleanup, hcl] at hm
    · simp only [plusOneElemValue, hm, if_true, ManagedValue.forward, hcl]
      exact inactive_preserved_deactivate cid cid2 s h0
  · have hstep : (plusOneElemValue m s).snd =
        deactivateCleanup s.nextCleanupId
          (pushCleanup (.releaseValue (.copyVal m.value))
            (appendInstr (.copyIntoAddr m.value (.copyVal m.value)) s)).snd := by
      simp [plusOneElemValue, hm, ManagedValue.copyUnmanaged, ManagedValue.forward,
        pushCleanup, appendInstr]
    rw [hstep]
    apply inactive_preserved_deactivate
    apply inactive_preserved_push
    · simpa [appendInstr] using hlt
    · intro c hc hid
      exact h0 c hc hid

theorem plusOne_keeps_inactive (cid : Nat) : ∀ (mvs : List ManagedValue) (s : SGState),
    cid < s.nextCleanupId →
    (∀ c ∈ s.cleanups, c.id = cid → c.active = false) →
    ∀ c ∈ (plusOneElemValues mvs s).snd.cleanups, c.id = cid → c.active = false := by
  intro mvs
  induction mvs with
  | nil => intro s _ h0; simpa [plusOneElemValues] using h0
  | cons m ms ih =>
    intro s hlt h0
    rcases h1 : plusOneElemValue m s with ⟨v, s1⟩
    rcases h2 : plusOneElemValues ms s1 with ⟨vs, s2⟩
    have hred : (plusOneElemValues (m :: ms) s).snd = s2 := by
      simp [plusOneElemValues, h1, h2]
    rw [hred]
    have hmono := plusOneElemValue_next_mono m s
    rw [h1] at hmono
    simp only at hmono
    have hk := plusOneElemValue_keeps_inactive cid m s hlt h0
    rw [h1] at hk
    simp only at hk
    have := ih s1 (by omega) hk
    rw [h2] at this
    exact this

theorem plusOneElemValue_state (b : Nat) (m : ManagedValue) (s : SGState)
    (hb : b ≤ s.nextCleanupId)
    (hm : ∀ cid, m.cleanup = some cid → b ≤ cid ∧ cid < s.nextCleanupId) :
    (plusOneElemValue m s).fst =
      (if m.hasCleanup then m.value else .copyVal m.value) ∧
    EvolvesFrom b s (plusOneElemValue m s).snd ∧
    (plusOneElemValue m s).snd.nextValueId = s.nextValueId ∧
    (plusOneElemValue m s).snd.nextAllocId = s.nextAllocId ∧
    (∀ cid, m.cleanup = some cid →
        ∀ c ∈ (plusOneElemValue m s).snd.cleanups, c.id = cid → c.active = false) := by
  rcases hcl : m.cleanup with _ | cid
  · have hm2 : m.hasCleanup = false := by simp [ManagedValue.hasCleanup, hcl]
    have hstep : plusOneElemValue m s =
        (SILValue.copyVal m.value,
         deactivateCleanup s.nextCleanupId
           (pushCleanup (.releaseValue (.copyVal m.value))
             (appendInstr (.copyIntoAddr m.value (.copyVal m.value)) s)).snd) := by
      simp [plusOneElemValue, hm2, ManagedValue.copyUnmanaged, ManagedValue.forward,
        pushCleanup, appendInstr]
    rw [hstep]
    refine ⟨by simp [hm2], ?_, by simp [deactivateCleanup, pushCleanup, appendInstr],
      by simp [deactivateCleanup, pushCleanup, appendInstr], ?_⟩
    · refine evolvesFrom_trans (evolvesFrom_appendInstr b _ s)
        (evolvesFrom_trans (evolvesFrom_pushCleanup b _ _ (by simpa [appendInstr] using hb))
          (evolvesFrom_deactivate b s.nextCleanupId _ hb))
    · intro cid hcid
      cases hcid
  · have hm2 : m.hasCleanup = true := by simp [ManagedValue.hasCleanup, hcl]
    have hstep : plusOneElemValue m s = (m.value, deactivateCleanup cid s) := by
      simp [plusOneElemValue, hm2, ManagedValue.forward, hcl]
    rw [hstep]
    obtain ⟨hbc, hlt⟩ := hm cid hcl
    refine ⟨by simp [hm2], evolvesFrom_deactivate b cid s hbc,
      by simp [deactivateCleanup], by simp [deactivateCleanup], ?_⟩
    intro cid2 hcid2
    cases hcid2
    simp only
    exact deactivate_makes_inactive cid s

theorem plusOneElemValues_state (b : Nat) : ∀ (mvs : List ManagedValue) (s : SGState),
    b ≤ s.nextCleanupId →
    (∀ m ∈ mvs, ∀ cid, m.cleanup = some cid → b ≤ cid ∧ cid < s.nextCleanupId) →
    (plusOneElemValues mvs s).fst =
      mvs.map (fun m => if m.hasCleanup then m.value else .copyVal m.value) ∧
    EvolvesFrom b s (plusOneElemValues mvs s).snd ∧
    (plusOneElemValues mvs s).snd.nextValueId = s.nextValueId ∧
    (plusOneElemValues mvs s).snd.nextAllocId = s.nextAllocId ∧
    (∀ m ∈ mvs, ∀ cid, m.cleanup = some cid →
        ∀ c ∈ (plusOneElemValues mvs s).snd.cleanups, c.id = cid → c.active = false) := by
  intro mvs
  induction mvs with
  | nil =>
    intro s hb _
    refine ⟨by simp [plusOneElemValues], ?_, by simp [plusOneElemValues],
      by simp [plusOneElemValues], by simp⟩
    simpa [plusOneElemValues] using evolvesFrom_refl b s
  | cons m ms ih =>
    intro s hb hm
    rcases h1 : plusOneElemValue m s with ⟨v, s1⟩
    rcases h2 : plusOneElemValues ms s1 with ⟨vs, s2⟩
    have hred : plusOneElemValues (m :: ms) s = (v :: vs, s2) := by
      simp [plusOneElemValues, h1, h2]
    rw [hred]
    have S1 := plusOneElemValue_state b m s hb (hm m (by simp))
    rw [h1] at S1
    simp only at S1
    obtain ⟨S1v, S1e, S1nv, S1na, S1in⟩ := S1
    have hb1 : b ≤ s1.nextCleanupId := le_trans hb S1e.1
    have hm1 : ∀ m2 ∈ ms, ∀ cid, m2.cleanup = some cid → b ≤ cid ∧ cid < s1.nextCleanupId := by
      intro m2 hm2 cid hcid
      obtain ⟨h3, h4⟩ := hm m2 (by simp [hm2]) cid hcid
      exact ⟨h3, lt_of_lt_of_le h4 S1e.1⟩
    have IH := ih s1 hb1 hm1
    rw [h2] at IH
    simp only at IH
    obtain ⟨IHv, IHe, IHnv, IHna, IHin⟩ := IH
    refine ⟨by simp [S1v, IHv], evolvesFrom_trans S1e IHe,
      IHnv.trans S1nv, IHna.trans S1na, ?_⟩
    intro m2 hm2 cid hcid
    rcases List.mem_cons.mp hm2 with rfl | hm2
    · have hin := S1in cid hcid
      have hlt : cid < s1.nextCleanupId :=
        lt_of_lt_of_le (hm m2 (by simp) cid hcid).2 S1e.1
      have hkeep := plusOne_keeps_inactive cid ms s1 hlt hin
      rw [h2] at hkeep
      simp only at hkeep
      exact hkeep
    · exact IHin m2 hm2 cid hcid



theorem storeTupleElem_state (b : Nat) (buf : SILValue) (i : Nat)
    (m : ManagedValue) (s : SGState)
    (hm : ∀ cid, m.cleanup = some cid → b ≤ cid) :
    EvolvesFrom b s (storeTupleElem buf i m s) ∧
    (storeTupleElem buf i m s).nextValueId = s.nextValueId ∧
    (storeTupleElem buf i m s).nextAllocId = s.nextAllocId ∧
    (storeTupleElem buf i m s).nextCleanupId = s.nextCleanupId := by
  rcases hcl : m.cleanup with _ | cid
  · have hm2 : m.hasCleanup = false := by simp [ManagedValue.hasCleanup, hcl]
    have hstep : storeTupleElem buf i m s =
        appendInstr (.copyIntoAddr m.value (.tupleElemAddr buf i))
          (appendInstr (.tupleExtractAddr buf i) s) := by
      simp [storeTupleElem, hm2, ManagedValue.copyInto]
    rw [hstep]
    refine ⟨evolvesFrom_trans (evolvesFrom_appendInstr b _ s)
      (evolvesFrom_appendInstr b _ _), by simp [appendInstr], by simp [appendInstr],
      by simp [appendInstr]⟩
  · have hm2 : m.hasCleanup = true := by simp [ManagedValue.hasCleanup, hcl]
    have hstep : storeTupleElem buf i m s =
        appendInstr (.moveInto m.value (.tupleElemAddr buf i))
          (deactivateCleanup cid (appendInstr (.tupleExtractAddr buf i) s)) := by
      simp [storeTupleElem, hm2, ManagedValue.forwardInto, ManagedValue.forward, hcl]
    rw [hstep]
    refine ⟨evolvesFrom_trans (evolvesFrom_appendInstr b _ s)
      (evolvesFrom_trans (evolvesFrom_deactivate b cid _ (hm cid hcl))
        (evolvesFrom_appendInstr b _ _)),
      by simp [appendInstr, deactivateCleanup],
      by simp [appendInstr, deactivateCleanup],
      by simp [appendInstr, deactivateCleanup]⟩

theorem storeTupleElems_state (b : Nat) (buf : SILValue) :
    ∀ (mvs : List ManagedValue) (i : Nat) (s : SGState),
    (∀ m ∈ mvs, ∀ cid, m.cleanup = some cid → b ≤ cid) →
    EvolvesFrom b s (storeTupleElems buf i mvs s) ∧
    (storeTupleElems buf i mvs s).nextValueId = s.nextValueId ∧
    (storeTupleElems buf i mvs s).nextAllocId = s.nextAllocId ∧
    (storeTupleElems buf i mvs s).nextCleanupId = s.nextCleanupId := by
  intro mvs
  induction mvs with
  | nil =>
    intro i s _
    exact ⟨by simpa [storeTupleElems] using evolvesFrom_refl b s,
      by simp [storeTupleElems], by simp [storeTupleElems], by simp [storeTupleElems]⟩
  | cons m ms ih =>
    intro i s hm
    have S1 := storeTupleElem_state b buf i m s (hm m (by simp))
    obtain ⟨S1e, S1nv, S1na, S1nc⟩ := S1
    have IH := ih (i + 1) (storeTupleElem buf i m s)
      (fun m2 hm2 cid hcid => hm m2 (by simp [hm2]) cid hcid)
    obtain ⟨IHe, IHnv, IHna, IHnc⟩ := IH
    have hred : storeTupleElems buf i (m :: ms) s =
        storeTupleElems buf (i + 1) ms (storeTupleElem buf i m s) := by
      rw [storeTupleElems]
    rw [hred]
    exact ⟨evolvesFrom_trans S1e IHe, IHnv.trans S1nv, IHna.trans S1na, IHnc.trans S1nc⟩



mutual
theorem visitArg_state (fargs : Bool) (t : CanType) (ps ps1 : List SILParamInfo)
    (s s1 : SGState) (mv : ManagedValue)
    (h : visitArg fargs t ps s = .ok (mv, ps1, s1)) :
    EvolvesFrom s.nextCleanupId s s1 ∧
    (∀ cid, mv.cleanup = some cid →
       s.nextCleanupId ≤ cid ∧ cid < s1.nextCleanupId ∧
       s1.cleanups.head? = some ⟨cid, .releaseValue mv.value, true⟩) := by
  cases t with
  | tupleTy elts =>
    rw [visitArg] at h
    cases hevs : visitArgElems fargs elts ps s with
    | error e => rw [hevs] at h; simp at h
    | ok r =>
      obtain ⟨mvs, ps1a, s1a⟩ := r
      rw [hevs] at h
      simp only at h
      obtain ⟨E1, B1⟩ := visitArgElems_state fargs elts ps ps1a s s1a mvs hevs
      split at h
      · split at h
        · simp only [Except.ok.injEq, Prod.mk.injEq] at h
          obtain ⟨h1, _, h3⟩ := h
          subst h1 h3
          exact ⟨E1, fun cid hcid => by simp [ManagedValue.forUnmanaged] at hcid⟩
        · rcases hpv : plusOneElemValues mvs s1a with ⟨vals, s2⟩
          rw [hpv] at h
          simp only [emitManagedRValueWithCleanup, pushCleanup, Except.ok.injEq,
            Prod.mk.injEq] at h
          obtain ⟨h1, _, h3⟩ := h
          subst h1 h3
          have P := plusOneElemValues_state s.nextCleanupId mvs s1a E1.1 B1
          rw [hpv] at P
          simp only at P
          obtain ⟨_, Pe, _, _, _⟩ := P
          have hb2 : s.nextCleanupId ≤ s2.nextCleanupId := le_trans E1.1 Pe.1
          constructor
          · exact evolvesFrom_trans E1 (evolvesFrom_trans Pe
              (evolvesFrom_pushShape _ _ rfl rfl rfl ⟨[], by simp⟩ hb2))
          · intro cid hcid
            simp only [Option.some.injEq] at hcid
            subst hcid
            exact ⟨hb2, by simp, by simp⟩
      · rcases hta : emitTemporaryAllocation s1a with ⟨buf, s2⟩
        rw [hta] at h
        simp only [emitManagedRValueWithCleanup, pushCleanup, Except.ok.injEq,
          Prod.mk.injEq] at h
        obtain ⟨h1, _, h3⟩ := h
        subst h1 h3
        have hEt : EvolvesFrom s.nextCleanupId s1a s2 := by
          have := evolvesFrom_temporaryAllocation s.nextCleanupId s1a
          rw [hta] at this
          simpa using this
        have hB2 : ∀ m ∈ mvs, ∀ cid, m.cleanup = some cid → s.nextCleanupId ≤ cid :=
          fun m hm cid hcid => (B1 m hm cid hcid).1
        have St := storeTupleElems_state s.nextCleanupId buf mvs 0 s2 hB2
        obtain ⟨Ste, _, _, Stnc⟩ := St
        have hs2nc : s2.nextCleanupId = s1a.nextCleanupId := by
          have : (emitTemporaryAllocation s1a).snd.nextCleanupId = s1a.nextCleanupId := by
            simp [emitTemporaryAllocation]
          rw [hta] at this
          simpa using this
        have hb2 : s.nextCleanupId ≤ (storeTupleElems buf 0 mvs s2).nextCleanupId := by
          rw [Stnc, hs2nc]
          exact E1.1
        constructor
        · exact evolvesFrom_trans E1 (evolvesFrom_trans hEt (evolvesFrom_trans Ste
            (evolvesFrom_pushShape _ _ rfl rfl rfl ⟨[], by simp⟩ hb2)))
        · intro cid hcid
          simp only [Option.some.injEq] at hcid
          subst hcid
          exact ⟨hb2, by simp, by simp⟩
  | scalar i l tr =>
    simp only [visitArg] at h
    have R := visitTypeLeaf_state _ _ _ _ _ _ _ h
    exact ⟨R.1, R.2.1⟩
  | blockFn =>
    simp only [visitArg] at h
    have R := visitTypeLeaf_state _ _ _ _ _ _ _ h
    exact ⟨R.1, R.2.1⟩
  | optionalTy obj =>
    simp only [visitArg] at h
    have R := visitTypeLeaf_state _ _ _ _ _ _ _ h
    exact ⟨R.1, R.2.1⟩
  | inoutTy pointee =>
    simp only [visitArg] at h
    have R := visitTypeLeaf_state _ _ _ _ _ _ _ h
    exact ⟨R.1, R.2.1⟩
  | builtinValueBuffer =>
    simp only [visitArg] at h
    have R := visitTypeLeaf_state _ _ _ _ _ _ _ h
    exact ⟨R.1, R.2.1⟩
  | boxOf inner =>
    simp only [visitArg] at h
    have R := visitTypeLeaf_state _ _ _ _ _ _ _ h
    exact ⟨R.1, R.2.1⟩

theorem visitArgElems_state (fargs : Bool) (ts : List CanType)
    (ps ps1 : List SILParamInfo) (s s1 : SGState) (mvs : List ManagedValue)
    (h : visitArgElems fargs ts ps s = .ok (mvs, ps1, s1)) :
    EvolvesFrom s.nextCleanupId s s1 ∧
    (∀ m ∈ mvs, ∀ cid, m.cleanup = some cid →
       s.nextCleanupId ≤ cid ∧ cid < s1.nextCleanupId) := by
  cases ts with
  | nil =>
    rw [visitArgElems] at h
    simp only [Except.ok.injEq, Prod.mk.injEq] at h
    obtain ⟨h1, _, h3⟩ := h
    subst h1 h3
    exact ⟨evolvesFrom_refl _ _, by simp⟩
  | cons t rest =>
    rw [visitArgElems] at h
    cases hv : visitArg fargs t ps s with
    | error e => rw [hv] at h; simp at h
    | ok r =>
      obtain ⟨mv0, psA, sA⟩ := r
      rw [hv] at h
      simp only at h
      cases hvs : visitArgElems fargs rest psA sA with
      | error e => rw [hvs] at h; simp at h
      | ok r2 =>
        obtain ⟨mvsB, psB, sB⟩ := r2
        rw [hvs] at h
        simp only [Except.ok.injEq, Prod.mk.injEq] at h
        obtain ⟨h1, _, h3⟩ := h
        subst h1 h3
        obtain ⟨E1, H1⟩ := visitArg_state fargs t ps psA s sA mv0 hv
        obtain ⟨E2, H2⟩ := visitArgElems_state fargs rest psA psB sA sB mvsB hvs
        refine ⟨evolvesFrom_trans E1 (evolvesFrom_mono E1.1 E2), ?_⟩
        intro m hm cid hcid
        rcases List.mem_cons.mp hm with rfl | hm
        · obtain ⟨ha, hb, _⟩ := H1 cid hcid
          exact ⟨ha, lt_of_lt_of_le hb E2.1⟩
        · obtain ⟨ha, hb⟩ := H2 m hm cid hcid
          exact ⟨le_trans E1.1 ha, hb⟩
end

end SILGenProlog

namespace SILGenProlog

/-- C1: for every argument slot, the ownership state of the managed value
produced by the ownership convention resolver is determined solely by the
slot's convention tag: deallocating, guaranteed, in-guaranteed and inout
yield a value with no cleanup attached (unmanaged or lvalue); unowned
retains the value on entry and attaches a matching release cleanup; owned
and in attach a release cleanup directly to the incoming value; the out
convention is a fatal error. -/
theorem c1_resolver_ownership_mapping (arg : SILValue) (t : CanType)
    (pinfo : SILParamInfo) (s : SGState) :
    getManagedValue arg t pinfo s =
      match pinfo.convention with
      | .directDeallocating => .ok (ManagedValue.forUnmanaged arg, s)
      | .directGuaranteed => .ok (ManagedValue.forUnmanaged arg, s)
      | .indirectInGuaranteed => .ok (ManagedValue.forUnmanaged arg, s)
      | .indirectInout => .ok (ManagedValue.forLValue arg, s)
      | .directUnowned =>
          .ok (⟨arg, some s.nextCleanupId, false⟩,
               { s with instrs := s.instrs ++ [.retainValue arg],
                        cleanups :=
                          ⟨s.nextCleanupId, .releaseValue arg, true⟩ :: s.cleanups,
                        nextCleanupId := s.nextCleanupId + 1 })
      | .directOwned =>
          .ok (⟨arg, some s.nextCleanupId, false⟩,
               { s with cleanups :=
                          ⟨s.nextCleanupId, .releaseValue arg, true⟩ :: s.cleanups,
                        nextCleanupId := s.nextCleanupId + 1 })
      | .indirectIn =>
          .ok (⟨arg, some s.nextCleanupId, false⟩,
               { s with cleanups :=
                          ⟨s.nextCleanupId, .releaseValue arg, true⟩ :: s.cleanups,
                        nextCleanupId := s.nextCleanupId + 1 })
      | .indirectOut => .error .outConvention := by
  obtain ⟨ty0, conv⟩ := pinfo
  cases conv <;> rfl

/-- C3: for every structural type the materializer completes on, the
descriptors consumed from the front of the queue are exactly one per scalar
leaf of the recursive tuple flattening of the type: the remaining queue is
the original queue with its first leafCount entries dropped. -/
theorem c3_descriptor_consumption (fargs : Bool) (t : CanType)
    (ps ps1 : List SILParamInfo) (s s1 : SGState) (mv : ManagedValue)
    (h : visitArg fargs t ps s = .ok (mv, ps1, s1)) :
    CanType.leafCount t ≤ ps.length ∧
    ps1 = ps.drop (CanType.leafCount t) ∧
    ps = ps.take (CanType.leafCount t) ++ ps1 := by
  obtain ⟨h1, h2⟩ := visitArg_consumes fargs t ps ps1 s s1 mv h
  exact ⟨h1, h2, by rw [h2, List.take_append_drop]⟩

end SILGenProlog

namespace SILGenProlog

/-- Witness for C3: a nested 2-level tuple with three scalar leaves consumes
exactly the first three descriptors of a four-descriptor queue, in order. -/
theorem c3_descriptor_consumption_witness :
    visitArg true
      (.tupleTy [.tupleTy [.scalar 0 true false, .scalar 1 true true],
                 .scalar 2 true true])
      [⟨.scalar 0 true false, .directGuaranteed⟩,
       ⟨.scalar 1 true true, .directGuaranteed⟩,
       ⟨.scalar 2 true true, .directGuaranteed⟩,
       ⟨.scalar 3 true true, .directOwned⟩] {} =
      .ok (⟨.tupleVal [.tupleVal [.arg 0, .arg 1], .arg 2], none, false⟩,
           [⟨.scalar 3 true true, .directOwned⟩],
           { nextValueId := 3,
             blockArgs := [(0, .scalar 0 true false), (1, .scalar 1 true true),
                           (2, .scalar 2 true true)] }) ∧
    (CanType.leafCount (.tupleTy [.tupleTy [.scalar 0 true false, .scalar 1 true true],
        .scalar 2 true true]) ≤
      ([⟨.scalar 0 true false, .directGuaranteed⟩,
        ⟨.scalar 1 true true, .directGuaranteed⟩,
        ⟨.scalar 2 true true, .directGuaranteed⟩,
        ⟨.scalar 3 true true, .directOwned⟩] : List SILParamInfo).length ∧
     ([⟨.scalar 3 true true, .directOwned⟩] : List SILParamInfo) =
       ([⟨.scalar 0 true false, .directGuaranteed⟩,
         ⟨.scalar 1 true true, .directGuaranteed⟩,
         ⟨.scalar 2 true true, .directGuaranteed⟩,
         ⟨.scalar 3 true true, .directOwned⟩] : List SILParamInfo).drop
         (CanType.leafCount (.tupleTy [.tupleTy [.scalar 0 true false,
            .scalar 1 true true], .scalar 2 true true])) ∧
     ([⟨.scalar 0 true false, .directGuaranteed⟩,
       ⟨.scalar 1 true true, .directGuaranteed⟩,
       ⟨.scalar 2 true true, .directGuaranteed⟩,
       ⟨.scalar 3 true true, .directOwned⟩] : List SILParamInfo) =
       ([⟨.scalar 0 true false, .directGuaranteed⟩,
         ⟨.scalar 1 true true, .directGuaranteed⟩,
         ⟨.scalar 2 true true, .directGuaranteed⟩,
         ⟨.scalar 3 true true, .directOwned⟩] : List SILParamInfo).take
         (CanType.leafCount (.tupleTy [.tupleTy [.scalar 0 true false,
            .scalar 1 true true], .scalar 2 true true])) ++
         [⟨.scalar 3 true true, .directOwned⟩]) :=
  ⟨rfl, c3_descriptor_consumption true _ _ _ {} _ _ rfl⟩

end SILGenProlog

namespace SILGenProlog

mutual
theorem emitReconstituted_spec (t : CanType) (s : SGState) :
    emitReconstitutedConstantCaptureArguments t s =
      (reconSpec t s.nextValueId,
       { s with nextValueId := s.nextValueId + CanType.leafCount t,
                blockArgs := s.blockArgs ++ leafEntries t s.nextValueId }) := by
  cases t with
  | tupleTy elts =>
    rw [emitReconstitutedConstantCaptureArguments, emitReconstitutedList_spec elts s]
    simp only [reconSpec, CanType.leafCount, leafEntries]
  | scalar i l tr =>
    simp [emitReconstitutedConstantCaptureArguments, createBBArg, reconSpec,
      CanType.leafCount, leafEntries]
  | blockFn =>
    simp [emitReconstitutedConstantCaptureArguments, createBBArg, reconSpec,
      CanType.leafCount, leafEntries]
  | optionalTy obj =>
    simp [emitReconstitutedConstantCaptureArguments, createBBArg, reconSpec,
      CanType.leafCount, leafEntries]
  | inoutTy pointee =>
    simp [emitReconstitutedConstantCaptureArguments, createBBArg, reconSpec,
      CanType.leafCount, leafEntries]
  | builtinValueBuffer =>
    simp [emitReconstitutedConstantCaptureArguments, createBBArg, reconSpec,
      CanType.leafCount, leafEntries]
  | boxOf inner =>
    simp [emitReconstitutedConstantCaptureArguments, createBBArg, reconSpec,
      CanType.leafCount, leafEntries]

theorem emitReconstitutedList_spec (ts : List CanType) (s : SGState) :
    emitReconstitutedList ts s =
      (reconSpecList ts s.nextValueId,
       { s with nextValueId := s.nextValueId + CanType.leafCountList ts,
                blockArgs := s.blockArgs ++ leafEntriesList ts s.nextValueId }) := by
  cases ts with
  | nil =>
    simp [emitReconstitutedList, reconSpecList, CanType.leafCountList, leafEntriesList]
  | cons t rest =>
    rw [emitReconstitutedList, emitReconstituted_spec t s]
    simp only
    rw [emitReconstitutedList_spec rest
      { s with nextValueId := s.nextValueId + CanType.leafCount t,
               blockArgs := s.blockArgs ++ leafEntries t s.nextValueId }]
    simp only [reconSpecList, CanType.leafCountList, leafEntriesList]
    simp [Nat.add_assoc, List.append_assoc]
end

end SILGenProlog

namespace SILGenProlog

mutual
theorem flatten_reconSpec (t : CanType) (n : Nat) :
    flattenValue (reconSpec t n) =
      (List.range' n (CanType.leafCount t)).map SILValue.arg := by
  cases t with
  | tupleTy elts =>
    rw [reconSpec, CanType.leafCount, flattenValue]
    exact flatten_reconSpecList elts n
  | scalar i l tr => simp [reconSpec, flattenValue, CanType.leafCount, List.range']
  | blockFn => simp [reconSpec, flattenValue, CanType.leafCount, List.range']
  | optionalTy obj => simp [reconSpec, flattenValue, CanType.leafCount, List.range']
  | inoutTy pointee => simp [reconSpec, flattenValue, CanType.leafCount, List.range']
  | builtinValueBuffer => simp [reconSpec, flattenValue, CanType.leafCount, List.range']
  | boxOf inner => simp [reconSpec, flattenValue, CanType.leafCount, List.range']

theorem flatten_reconSpecList (ts : List CanType) (n : Nat) :
    flattenValueList (reconSpecList ts n) =
      (List.range' n (CanType.leafCountList ts)).map SILValue.arg := by
  cases ts with
  | nil => simp [reconSpecList, flattenValueList, CanType.leafCountList]
  | cons t rest =>
    rw [reconSpecList, CanType.leafCountList, flattenValueList,
      flatten_reconSpec t n, flatten_reconSpecList rest (n + CanType.leafCount t)]
    rw [← List.map_append, List.range'_append_1]
    rw [Nat.add_comm (CanType.leafCountList rest) (CanType.leafCount t)]
end

mutual
theorem leafEntries_length (t : CanType) (n : Nat) :
    (leafEntries t n).length = CanType.leafCount t := by
  cases t with
  | tupleTy elts =>
    rw [leafEntries, CanType.leafCount]
    exact leafEntriesList_length elts n
  | scalar i l tr => simp [leafEntries, CanType.leafCount]
  | blockFn => simp [leafEntries, CanType.leafCount]
  | optionalTy obj => simp [leafEntries, CanType.leafCount]
  | inoutTy pointee => simp [leafEntries, CanType.leafCount]
  | builtinValueBuffer => simp [leafEntries, CanType.leafCount]
  | boxOf inner => simp [leafEntries, CanType.leafCount]

theorem leafEntriesList_length (ts : List CanType) (n : Nat) :
    (leafEntriesList ts n).length = CanType.leafCountList ts := by
  cases ts with
  | nil => simp [leafEntriesList, CanType.leafCountList]
  | cons t rest =>
    rw [leafEntriesList, CanType.leafCountList]
    simp [leafEntries_length t n, leafEntriesList_length rest (n + CanType.leafCount t)]
end

theorem emitCaptureArguments_blockArgs (c : CapturedValue) (s : SGState) :
    ∃ newA, (emitCaptureArguments c s).blockArgs = s.blockArgs ++ newA := by
  obtain ⟨vd, kind⟩ := c
  cases kind with
  | noCapture => exact ⟨[], by simp [emitCaptureArguments]⟩
  | constant =>
    refine ⟨leafEntries vd.ty s.nextValueId, ?_⟩
    simp only [emitCaptureArguments, emitReconstituted_spec]
    by_cases hst : vd.settable <;> by_cases htr : CanType.isTrivial vd.ty <;>
      simp [hst, htr, emitTemporaryAllocation, appendInstr, bindVarLoc,
        enterDestroyCleanup, pushCleanup]
  | box =>
    exact ⟨[(s.nextValueId, .boxOf vd.ty), (s.nextValueId + 1, vd.ty)],
      by simp [emitCaptureArguments, createBBArg, bindVarLoc, pushCleanup]⟩
  | storageAddress =>
    exact ⟨[(s.nextValueId, vd.ty)],
      by simp [emitCaptureArguments, createBBArg, bindVarLoc]⟩

theorem emitCaptures_blockArgs (captures : List CapturedValue) : ∀ s : SGState,
    ∃ newA, (captures.foldl (fun acc c => emitCaptureArguments c acc) s).blockArgs
      = s.blockArgs ++ newA := by
  induction captures with
  | nil => intro s; exact ⟨[], by simp⟩
  | cons c rest ih =>
    intro s
    obtain ⟨a1, h1⟩ := emitCaptureArguments_blockArgs c s
    obtain ⟨a2, h2⟩ := ih (emitCaptureArguments c s)
    exact ⟨a1 ++ a2, by simp [h2, h1, List.append_assoc]⟩

/-- C5: the prologue orchestrator runs in order: first, when the declared
result type is address-only, exactly one extra leading argument is
materialized as the indirect-return destination and recorded, with the
name-binding table untouched; then the name-binding visitor runs over the
parameter patterns in reverse declaration order; finally capture arguments
are emitted, appended after all declared parameters. -/
theorem c5_prolog_ordering (fparams : List SILParamInfo) (patterns : List Pattern)
    (resultType : CanType) (captures : List CapturedValue) (s : SGState) :
    emitPrologWithCaptures fparams patterns resultType captures s =
      (match emitProlog fparams patterns resultType s with
       | .error e => .error e
       | .ok (ps1, s1) =>
         .ok (ps1, captures.foldl (fun acc c => emitCaptureArguments c acc) s1)) ∧
    emitProlog fparams patterns resultType s =
      visitPatternList patterns.reverse (initialParamQueue fparams)
        (if resultType.isLoadable then s
         else { s with nextValueId := s.nextValueId + 1,
                       blockArgs := s.blockArgs ++ [(s.nextValueId, resultType)],
                       indirectReturnAddress := some (.arg s.nextValueId) }) ∧
    (if resultType.isLoadable then s
     else { s with nextValueId := s.nextValueId + 1,
                   blockArgs := s.blockArgs ++ [(s.nextValueId, resultType)],
                   indirectReturnAddress := some (.arg s.nextValueId) }).varLocs
      = s.varLocs ∧
    (∀ s2 : SGState, ∃ newA,
       (captures.foldl (fun acc c => emitCaptureArguments c acc) s2).blockArgs
         = s2.blockArgs ++ newA) := by
  refine ⟨rfl, ?_, ?_, emitCaptures_blockArgs captures⟩
  · by_cases hl : resultType.isLoadable <;> simp [emitProlog, hl, createBBArg]
  · by_cases hl : resultType.isLoadable <;> simp [hl]

end SILGenProlog

namespace SILGenProlog

/-- C8: a by-value (constant-kind) capture of a tuple-typed variable is
flattened into one argument slot per scalar leaf and reconstituted into a
single structured value whose leaves are exactly those slots in order; the
name is bound to that value (or, when the variable is settable, to a fresh
temporary into which the value is stored), and exactly one destroy cleanup is
registered for the whole capture, none when the type is trivial. -/
theorem c8_constant_tuple_capture_roundtrip (vid : Nat) (nm : Option Nat)
    (elts : List CanType) (il st : Bool) (s : SGState) :
    flattenValue (reconSpec (.tupleTy elts) s.nextValueId) =
      (List.range' s.nextValueId
        (CanType.leafCount (.tupleTy elts))).map SILValue.arg ∧
    (∃ newA,
      (emitCaptureArguments ⟨⟨vid, nm, .tupleTy elts, il, st⟩, .constant⟩ s).blockArgs
        = s.blockArgs ++ newA ∧ newA.length = CanType.leafCount (.tupleTy elts)) ∧
    (if st then
       lookupVarLoc vid
           (emitCaptureArguments ⟨⟨vid, nm, .tupleTy elts, il, st⟩, .constant⟩ s)
         = some ⟨.alloc s.nextAllocId, none⟩ ∧
       (Instr.storeVal (reconSpec (.tupleTy elts) s.nextValueId)
           (.alloc s.nextAllocId)) ∈
         (emitCaptureArguments ⟨⟨vid, nm, .tupleTy elts, il, st⟩, .constant⟩ s).instrs ∧
       (emitCaptureArguments ⟨⟨vid, nm, .tupleTy elts, il, st⟩, .constant⟩ s).cleanups =
         (if CanType.isTrivial (.tupleTy elts) then s.cleanups
          else ⟨s.nextCleanupId, .destroyValue (.alloc s.nextAllocId), true⟩
                 :: s.cleanups)
     else
       lookupVarLoc vid
           (emitCaptureArguments ⟨⟨vid, nm, .tupleTy elts, il, st⟩, .constant⟩ s)
         = some ⟨reconSpec (.tupleTy elts) s.nextValueId, none⟩ ∧
       (emitCaptureArguments ⟨⟨vid, nm, .tupleTy elts, il, st⟩, .constant⟩ s).cleanups =
         (if CanType.isTrivial (.tupleTy elts) then s.cleanups
          else ⟨s.nextCleanupId,
                .destroyValue (reconSpec (.tupleTy elts) s.nextValueId), true⟩
                 :: s.cleanups)) := by
  refine ⟨flatten_reconSpec _ _, ?_, ?_⟩
  · refine ⟨leafEntries (.tupleTy elts) s.nextValueId, ?_, leafEntries_length _ _⟩
    simp only [emitCaptureArguments, emitReconstituted_spec]
    by_cases hst : st <;> by_cases htr : CanType.isTrivial (.tupleTy elts) <;>
      simp [hst, htr, emitTemporaryAllocation, appendInstr, bindVarLoc,
        enterDestroyCleanup, pushCleanup]
  · simp only [emitCaptureArguments, emitReconstituted_spec]
    by_cases hst : st <;> by_cases htr : CanType.isTrivial (.tupleTy elts) <;>
      simp [hst, htr, emitTemporaryAllocation, appendInstr, bindVarLoc,
        enterDestroyCleanup, pushCleanup, lookupVarLoc]

mutual
theorem forwardMakeArgument_spec (t : CanType) (args : List SILValue) (s : SGState) :
    forwardMakeArgument t args s =
      (args ++ (List.range' s.nextValueId (CanType.leafCount t)).map SILValue.arg,
       { s with nextValueId := s.nextValueId + CanType.leafCount t,
                blockArgs := s.blockArgs ++ leafEntries t s.nextValueId }) := by
  cases t with
  | tupleTy elts =>
    rw [forwardMakeArgument, forwardMakeArgumentList_spec elts args s]
    simp only [CanType.leafCount, leafEntries]
  | scalar i l tr =>
    simp [forwardMakeArgument, createBBArg, CanType.leafCount, leafEntries, List.range']
  | blockFn =>
    simp [forwardMakeArgument, createBBArg, CanType.leafCount, leafEntries, List.range']
  | optionalTy obj =>
    simp [forwardMakeArgument, createBBArg, CanType.leafCount, leafEntries, List.range']
  | inoutTy pointee =>
    simp [forwardMakeArgument, createBBArg, CanType.leafCount, leafEntries, List.range']
  | builtinValueBuffer =>
    simp [forwardMakeArgument, createBBArg, CanType.leafCount, leafEntries, List.range']
  | boxOf inner =>
    simp [forwardMakeArgument, createBBArg, CanType.leafCount, leafEntries, List.range']

theorem forwardMakeArgumentList_spec (ts : List CanType) (args : List SILValue)
    (s : SGState) :
    forwardMakeArgumentList ts args s =
      (args ++ (List.range' s.nextValueId
          (CanType.leafCountList ts)).map SILValue.arg,
       { s with nextValueId := s.nextValueId + CanType.leafCountList ts,
                blockArgs := s.blockArgs ++ leafEntriesList ts s.nextValueId }) := by
  cases ts with
  | nil => simp [forwardMakeArgumentList, CanType.leafCountList, leafEntriesList]
  | cons t rest =>
    rw [forwardMakeArgumentList, forwardMakeArgument_spec t args s]
    simp only
    rw [forwardMakeArgumentList_spec rest
      (args ++ (List.range' s.nextValueId (CanType.leafCount t)).map SILValue.arg)
      { s with nextValueId := s.nextValueId + CanType.leafCount t,
               blockArgs := s.blockArgs ++ leafEntries t s.nextValueId }]
    simp only [CanType.leafCountList, leafEntriesList]
    rw [List.append_assoc, ← List.map_append, List.range'_append_1]
    rw [Nat.add_comm (CanType.leafCountList rest) (CanType.leafCount t)]
    simp [Nat.add_assoc, List.append_assoc]
end

end SILGenProlog

namespace SILGenProlog

mutual
theorem forwardVisit_spec (p : Pattern) (args args1 : List SILValue)
    (s s1 : SGState) (h : forwardVisit p args s = .ok (args1, s1)) :
    args1 = args ++ (List.range' s.nextValueId (forwardCount p)).map SILValue.arg ∧
    s1 = { s with nextValueId := s.nextValueId + forwardCount p,
                  blockArgs := s.blockArgs ++ fwdEntries p s.nextValueId } := by
  cases p with
  | paren sub =>
    rw [forwardVisit] at h
    obtain ⟨h1, h2⟩ := forwardVisit_spec sub args args1 s s1 h
    rw [forwardCount, fwdEntries]
    exact ⟨h1, h2⟩
  | varP sub =>
    rw [forwardVisit] at h
    obtain ⟨h1, h2⟩ := forwardVisit_spec sub args args1 s s1 h
    rw [forwardCount, fwdEntries]
    exact ⟨h1, h2⟩
  | typed sub ty =>
    cases sub with
    | named vd =>
      simp only [forwardVisit] at h
      rw [forwardMakeArgument_spec] at h
      simp only [Except.ok.injEq, Prod.mk.injEq] at h
      obtain ⟨h1, h2⟩ := h
      subst h1 h2
      simp [forwardCount, fwdEntries]
    | paren sub2 =>
      simp only [forwardVisit] at h
      obtain ⟨h1, h2⟩ := forwardVisit_spec (.paren sub2) args args1 s s1 h
      exact ⟨by simpa [forwardCount] using h1, by simpa [fwdEntries] using h2⟩
    | varP sub2 =>
      simp only [forwardVisit] at h
      obtain ⟨h1, h2⟩ := forwardVisit_spec (.varP sub2) args args1 s s1 h
      exact ⟨by simpa [forwardCount] using h1, by simpa [fwdEntries] using h2⟩
    | typed sub2 ty2 =>
      simp only [forwardVisit] at h
      obtain ⟨h1, h2⟩ := forwardVisit_spec (.typed sub2 ty2) args args1 s s1 h
      exact ⟨by simpa [forwardCount] using h1, by simpa [fwdEntries] using h2⟩
    | tupleP elts2 =>
      simp only [forwardVisit] at h
      obtain ⟨h1, h2⟩ := forwardVisit_spec (.tupleP elts2) args args1 s s1 h
      exact ⟨by simpa [forwardCount] using h1, by simpa [fwdEntries] using h2⟩
    | anyP => simp [forwardVisit] at h
    | refutable => simp [forwardVisit] at h
  | tupleP elts =>
    rw [forwardVisit] at h
    obtain ⟨h1, h2⟩ := forwardVisitList_spec elts args args1 s s1 h
    rw [forwardCount, fwdEntries]
    exact ⟨h1, h2⟩
  | named vd =>
    rw [forwardVisit, forwardMakeArgument_spec] at h
    simp only [Except.ok.injEq, Prod.mk.injEq] at h
    obtain ⟨h1, h2⟩ := h
    subst h1 h2
    simp [forwardCount, fwdEntries]
  | anyP => rw [forwardVisit] at h; cases h
  | refutable => rw [forwardVisit] at h; cases h

theorem forwardVisitList_spec (ps : List Pattern) (args args1 : List SILValue)
    (s s1 : SGState) (h : forwardVisitList ps args s = .ok (args1, s1)) :
    args1 = args ++ (List.range' s.nextValueId
        (forwardCountList ps)).map SILValue.arg ∧
    s1 = { s with nextValueId := s.nextValueId + forwardCountList ps,
                  blockArgs := s.blockArgs ++ fwdEntriesList ps s.nextValueId } := by
  cases ps with
  | nil =>
    rw [forwardVisitList] at h
    simp only [Except.ok.injEq, Prod.mk.injEq] at h
    obtain ⟨h1, h2⟩ := h
    subst h1 h2
    simp [forwardCountList, fwdEntriesList]
  | cons p rest =>
    rw [forwardVisitList] at h
    cases hv : forwardVisit p args s with
    | error e => rw [hv] at h; simp at h
    | ok r =>
      obtain ⟨argsA, sA⟩ := r
      rw [hv] at h
      simp only at h
      obtain ⟨h1, h2⟩ := forwardVisit_spec p args argsA s sA hv
      subst h1 h2
      obtain ⟨h3, h4⟩ := forwardVisitList_spec rest _ args1 _ s1 h
      subst h3 h4
      constructor
      · rw [List.append_assoc, ← List.map_append, List.range'_append_1]
        rw [Nat.add_comm (forwardCountList rest) (forwardCount p)]
        simp [forwardCountList]
      · simp only [forwardCountList, fwdEntriesList]
        simp [Nat.add_assoc, List.append_assoc]
end

/-- C9: the forwarding visitor walks the binding pattern like the
name-binding visitor but, for each leaf, only materializes fresh raw argument
values, with tuple types fully destructured into one value per scalar leaf
and no re-aggregation, appending them to the output list in pattern order;
it registers no cleanups, creates no name bindings and emits no
instructions. -/
theorem c9_forwarding_no_effects (p : Pattern) (args args1 : List SILValue)
    (s s1 : SGState) (h : forwardVisit p args s = .ok (args1, s1)) :
    args1 = args ++ (List.range' s.nextValueId (forwardCount p)).map SILValue.arg ∧
    s1 = { s with nextValueId := s.nextValueId + forwardCount p,
                  blockArgs := s.blockArgs ++ fwdEntries p s.nextValueId } ∧
    s1.cleanups = s.cleanups ∧ s1.varLocs = s.varLocs ∧ s1.instrs = s.instrs := by
  obtain ⟨h1, h2⟩ := forwardVisit_spec p args args1 s s1 h
  exact ⟨h1, h2, by rw [h2], by rw [h2], by rw [h2]⟩

end SILGenProlog

namespace SILGenProlog

/-- C4: a named in-out parameter is materialized as an lvalue address; when
the pointee type is the non-copyable Builtin.UnsafeValueBuffer marker the
name is bound directly to the incoming address with no shadow; otherwise a
fresh local mutable slot is allocated, initialized by copying from the
incoming address, the name is bound to that slot, and a write-back cleanup is
pushed whose emission copies the slot's then-current contents back to the
original incoming address. -/
theorem c4_inout_shadow_writeback (vd : VarDecl) (pointee : CanType)
    (ps ps1 : List SILParamInfo) (s s1 : SGState)
    (hty : vd.ty = .inoutTy pointee)
    (h : makeArgumentIntoBinding vd ps s = .ok (ps1, s1)) :
    ∃ argrv sm, visitArg true (.inoutTy pointee) ps s = .ok (argrv, ps1, sm) ∧
      argrv.value = .arg s.nextValueId ∧
      (pointee = .builtinValueBuffer →
        s1 = bindVarLoc vd.id ⟨argrv.value, none⟩ sm ∧
        lookupVarLoc vd.id s1 = some ⟨argrv.value, none⟩) ∧
      (pointee ≠ .builtinValueBuffer →
        lookupVarLoc vd.id s1 = some ⟨.alloc sm.nextAllocId, none⟩ ∧
        s1.nextAllocId = sm.nextAllocId + 1 ∧
        Instr.copyAddr argrv.value (.alloc sm.nextAllocId) false true ∈ s1.instrs ∧
        s1.cleanups =
          ⟨sm.nextCleanupId + 1, .writeBackToInOut vd.id argrv.value, true⟩ ::
          ⟨sm.nextCleanupId, .destroyValue (.alloc sm.nextAllocId), true⟩ ::
          sm.cleanups) ∧
      (∀ sig loc, lookupVarLoc vd.id sig = some loc →
        emitCleanupAction (.writeBackToInOut vd.id argrv.value) sig =
          appendInstr (.copyAddr loc.value argrv.value false false) sig) := by
  rw [makeArgumentIntoBinding] at h
  rw [hty] at h
  cases hv : visitArg true (.inoutTy pointee) ps s with
  | error e => rw [hv] at h; simp at h
  | ok r =>
    obtain ⟨argrv, ps1a, sm⟩ := r
    rw [hv] at h
    simp only at h
    have hval : argrv.value = .arg s.nextValueId := by
      rw [show visitArg true (.inoutTy pointee) ps s
            = visitTypeLeaf true (.inoutTy pointee) ps s by simp [visitArg]] at hv
      exact (visitTypeLeaf_state true (.inoutTy pointee) ps ps1a s sm argrv hv).2.2
        (by simp [CanType.anyOptionalObjectType, CanType.isBlockType])
    have hwb : ∀ (sig : SGState) (loc : VarLoc), lookupVarLoc vd.id sig = some loc →
        emitCleanupAction (.writeBackToInOut vd.id argrv.value) sig =
          appendInstr (.copyAddr loc.value argrv.value false false) sig := by
      intro sig loc hloc
      simp [emitCleanupAction, hloc]
    cases pointee with
    | builtinValueBuffer =>
      simp only [Except.ok.injEq, Prod.mk.injEq] at h
      obtain ⟨h1, h2⟩ := h
      subst h1 h2
      refine ⟨argrv, sm, rfl, hval, ?_, ?_, hwb⟩
      · intro _
        exact ⟨rfl, by simp [lookupVarLoc, bindVarLoc]⟩
      · intro hne
        exact absurd rfl hne
    | scalar i l tr =>
      simp only [emitLocalVariableWithCleanup, appendInstr, bindVarLoc, pushCleanup,
        Except.ok.injEq, Prod.mk.injEq] at h
      obtain ⟨h1, h2⟩ := h
      subst h1 h2
      refine ⟨argrv, sm, rfl, hval, ?_, ?_, hwb⟩
      · intro he
        simp at he
      · intro _
        exact ⟨by simp [lookupVarLoc], by simp, by simp, by simp⟩
    | blockFn =>
      simp only [emitLocalVariableWithCleanup, appendInstr, bindVarLoc, pushCleanup,
        Except.ok.injEq, Prod.mk.injEq] at h
      obtain ⟨h1, h2⟩ := h
      subst h1 h2
      refine ⟨argrv, sm, rfl, hval, ?_, ?_, hwb⟩
      · intro he
        simp at he
      · intro _
        exact ⟨by simp [lookupVarLoc], by simp, by simp, by simp⟩
    | optionalTy obj =>
      simp only [emitLocalVariableWithCleanup, appendInstr, bindVarLoc, pushCleanup,
        Except.ok.injEq, Prod.mk.injEq] at h
      obtain ⟨h1, h2⟩ := h
      subst h1 h2
      refine ⟨argrv, sm, rfl, hval, ?_, ?_, hwb⟩
      · intro he
        simp at he
      · intro _
        exact ⟨by simp [lookupVarLoc], by simp, by simp, by simp⟩
    | inoutTy p2 =>
      simp only [emitLocalVariableWithCleanup, appendInstr, bindVarLoc, pushCleanup,
        Except.ok.injEq, Prod.mk.injEq] at h
      obtain ⟨h1, h2⟩ := h
      subst h1 h2
      refine ⟨argrv, sm, rfl, hval, ?_, ?_, hwb⟩
      · intro he
        simp at he
      · intro _
        exact ⟨by simp [lookupVarLoc], by simp, by simp, by simp⟩
    | boxOf inner =>
      simp only [emitLocalVariableWithCleanup, appendInstr, bindVarLoc, pushCleanup,
        Except.ok.injEq, Prod.mk.injEq] at h
      obtain ⟨h1, h2⟩ := h
      subst h1 h2
      refine ⟨argrv, sm, rfl, hval, ?_, ?_, hwb⟩
      · intro he
        simp at he
      · intro _
        exact ⟨by simp [lookupVarLoc], by simp, by simp, by simp⟩
    | tupleTy elts =>
      simp only [emitLocalVariableWithCleanup, appendInstr, bindVarLoc, pushCleanup,
        Except.ok.injEq, Prod.mk.injEq] at h
      obtain ⟨h1, h2⟩ := h
      subst h1 h2
      refine ⟨argrv, sm, rfl, hval, ?_, ?_, hwb⟩
      · intro he
        simp at he
      · intro _
        exact ⟨by simp [lookupVarLoc], by simp, by simp, by simp⟩

end SILGenProlog

namespace SILGenProlog

/-- C7: a named non-in-out parameter leaf is bound directly to the
materialized value when immutable, leaving any attached cleanup in place and
making no copy; when mutable, a fresh local mutable slot is allocated and
bound, and the materialized value is moved into it (consuming its cleanup)
when it carries one, or independently deep-copied into it when it does not. -/
theorem c7_named_binding_ownership (vd : VarDecl)
    (ps ps1 : List SILParamInfo) (s s1 : SGState)
    (hni : ∀ pointee, vd.ty ≠ .inoutTy pointee)
    (h : makeArgumentIntoBinding vd ps s = .ok (ps1, s1)) :
    ∃ argrv sm, visitArg true vd.ty ps s = .ok (argrv, ps1, sm) ∧
      (vd.isLet = true →
        lookupVarLoc vd.id s1 = some ⟨argrv.value, none⟩ ∧
        s1.cleanups = sm.cleanups ∧
        s1.nextAllocId = sm.nextAllocId ∧
        s1.instrs = sm.instrs ++ [.debugValue argrv.value (!vd.ty.isLoadable)]) ∧
      (vd.isLet = false →
        lookupVarLoc vd.id s1 = some ⟨.alloc sm.nextAllocId, none⟩ ∧
        (argrv.hasCleanup = true →
          (∀ cid, argrv.cleanup = some cid →
            ∀ c ∈ s1.cleanups, c.id = cid → c.active = false) ∧
          s1.instrs = sm.instrs ++ [.allocStack sm.nextAllocId,
            .moveInto argrv.value (.alloc sm.nextAllocId)]) ∧
        (argrv.hasCleanup = false →
          s1.cleanups = ⟨sm.nextCleanupId, .destroyValue (.alloc sm.nextAllocId),
            true⟩ :: sm.cleanups ∧
          s1.instrs = sm.instrs ++ [.allocStack sm.nextAllocId,
            .copyIntoAddr argrv.value (.alloc sm.nextAllocId)])) := by
  obtain ⟨vid, nm, ty, il, st⟩ := vd
  cases ty
  case inoutTy pointee => exact absurd rfl (hni pointee)
  all_goals (
    rw [makeArgumentIntoBinding] at h
    split at h
    case _ e heq => exact absurd h (by simp)
    case _ argrv ps1a sm heq =>
      (try simp only at h)
      (try simp only at heq)
      (try simp only)
      cases il with
      | true =>
        (try simp only [Bool.false_eq_true, eq_self_iff_true, if_false, if_true, reduceIte, Except.ok.injEq, Prod.mk.injEq] at h)
        obtain ⟨h1, h2⟩ := h
        subst h1 h2
        refine ⟨argrv, sm, heq, ?_, ?_⟩
        · intro _
          exact ⟨by simp [lookupVarLoc, bindVarLoc, appendInstr],
            by simp [bindVarLoc, appendInstr], by simp [bindVarLoc, appendInstr],
            by simp [bindVarLoc, appendInstr]⟩
        · intro hlf
          exact absurd hlf (by simp)
      | false =>
        (try simp only [Bool.false_eq_true, eq_self_iff_true, if_false, if_true, reduceIte, Except.ok.injEq, Prod.mk.injEq] at h)
        obtain ⟨h1, h2⟩ := h
        subst h1 h2
        refine ⟨argrv, sm, heq, ?_, ?_⟩
        · intro hl
          exact absurd hl (by simp)
        all_goals intro _
        rcases hclv : argrv.cleanup with _ | cid
        · have hcl2 : argrv.hasCleanup = false := by
            simp [ManagedValue.hasCleanup, hclv]
          refine ⟨?_, ?_, ?_⟩
          · simp [hcl2, ManagedValue.copyInto, lookupVarLoc,
              emitLocalVariableWithCleanup, bindVarLoc, pushCleanup, appendInstr]
          · intro ht
            exact absurd ht (by simp [hcl2])
          · intro _
            constructor
            · simp [hcl2, ManagedValue.copyInto, emitLocalVariableWithCleanup,
                bindVarLoc, pushCleanup, appendInstr]
            · simp [hcl2, ManagedValue.copyInto, emitLocalVariableWithCleanup,
                bindVarLoc, pushCleanup, appendInstr]
        · have hcl2 : argrv.hasCleanup = true := by
            simp [ManagedValue.hasCleanup, hclv]
          refine ⟨?_, ?_, ?_⟩
          · simp [hcl2, ManagedValue.forwardInto, ManagedValue.forward, hclv,
              lookupVarLoc, emitLocalVariableWithCleanup, bindVarLoc, pushCleanup,
              appendInstr, deactivateCleanup]
          · intro _
            constructor
            · intro cid2 hcid2
              cases hcid2
              simp only [hcl2, if_true]
              simp only [ManagedValue.forwardInto, ManagedValue.forward, hclv,
                appendInstr]
              intro c hc hcid
              exact deactivate_makes_inactive cid _ c hc hcid
            · simp [hcl2, ManagedValue.forwardInto, ManagedValue.forward, hclv,
                emitLocalVariableWithCleanup, bindVarLoc, pushCleanup, appendInstr,
                deactivateCleanup]
          · intro hf
            exact absurd hf (by simp [hcl2]))

end SILGenProlog

namespace SILGenProlog

theorem emitCleanupAction_fields (k : Cleanup) (s : SGState) :
    (emitCleanupAction k s).cleanups = s.cleanups ∧
    (emitCleanupAction k s).varLocs = s.varLocs := by
  cases k with
  | writeBackToInOut var addr =>
    simp only [emitCleanupAction]
    cases lookupVarLoc var s <;> simp [appendInstr]
  | releaseValue v => simp [emitCleanupAction, appendInstr]
  | strongRelease v => simp [emitCleanupAction, appendInstr]
  | destroyValue v => simp [emitCleanupAction, appendInstr]

theorem emitActiveCleanups_fields (recs : List CleanupRec) : ∀ s : SGState,
    (emitActiveCleanups recs s).cleanups = s.cleanups ∧
    (emitActiveCleanups recs s).varLocs = s.varLocs := by
  induction recs with
  | nil => intro s; simp [emitActiveCleanups]
  | cons c cs ih =>
    intro s
    have hred : emitActiveCleanups (c :: cs) s =
        emitActiveCleanups cs (if c.active then emitCleanupAction c.kind s else s) := by
      simp [emitActiveCleanups]
    rcases ih (if c.active then emitCleanupAction c.kind s else s) with ⟨h1, h2⟩
    rw [hred]
    by_cases hc : c.active
    · simp only [hc, if_true] at h1 h2 ⊢
      exact ⟨h1.trans (emitCleanupAction_fields c.kind s).1,
        h2.trans (emitCleanupAction_fields c.kind s).2⟩
    · simp only [hc, if_false] at h1 h2 ⊢
      exact ⟨h1, h2⟩

/-- C6: an unnamed (discard) parameter binding materializes its value inside
a short-lived scope that is closed immediately: the cleanup stack afterwards
equals the stack before, the actions of every cleanup pushed during
materialization that is still active run at the discard site itself (inside
the popped scope), and any cleanup attached to the materialized value is
among those popped records. -/
theorem c6_discard_immediate_cleanup (vd : VarDecl) (ps ps1 : List SILParamInfo)
    (s s1 : SGState)
    (hwf : CleanupIdsBounded s)
    (hname : vd.name = none)
    (h : visitPattern (.named vd) ps s = .ok (ps1, s1)) :
    s1.cleanups = s.cleanups ∧
    s1.varLocs = s.varLocs ∧
    ∃ mv sm pre, visitArg true vd.ty ps s = .ok (mv, ps1, sm) ∧
      sm.cleanups = pre ++ s.cleanups ∧
      s1 = { emitActiveCleanups pre sm with cleanups := s.cleanups } ∧
      (∀ cid, mv.cleanup = some cid →
        ∃ c ∈ pre, c.id = cid ∧ c.active = true ∧ c.kind = .releaseValue mv.value) := by
  rw [visitPattern, hname] at h
  simp only at h
  cases hv : visitArg true vd.ty ps s with
  | error e => rw [hv] at h; simp at h
  | ok r =>
    obtain ⟨mv, ps1a, sm⟩ := r
    rw [hv] at h
    simp only [Except.ok.injEq, Prod.mk.injEq] at h
    obtain ⟨h1, h2⟩ := h
    subst h1 h2
    obtain ⟨E, HC⟩ := visitArg_state true vd.ty ps ps1a s sm mv hv
    obtain ⟨pre2, hsm, hpre2⟩ :=
      E.2.2.2.2 s.nextCleanupId le_rfl [] s.cleanups (by simp) (by simp) hwf
    have hk : sm.cleanups.length - s.cleanups.length = pre2.length := by
      rw [hsm, List.length_append]
      omega
    have htake : sm.cleanups.take (sm.cleanups.length - s.cleanups.length) = pre2 := by
      rw [hk, hsm, List.take_left]
    have hdrop : sm.cleanups.drop (sm.cleanups.length - s.cleanups.length)
        = s.cleanups := by
      rw [hk, hsm, List.drop_left]
    have hpop : popScope s.cleanups.length sm =
        { emitActiveCleanups pre2 sm with cleanups := s.cleanups } := by
      rw [popScope]
      rw [htake, hdrop]
    refine ⟨?_, ?_, mv, sm, pre2, rfl, hsm, hpop, ?_⟩
    · rw [hpop]
    · rw [hpop]
      simp only
      exact (emitActiveCleanups_fields pre2 sm).2.trans E.2.1
    · intro cid hcid
      obtain ⟨hge, _, hhead⟩ := HC cid hcid
      cases pre2 with
      | nil =>
        simp only [List.nil_append] at hsm
        rw [hsm] at hhead
        cases hcs : s.cleanups with
        | nil => rw [hcs] at hhead; simp at hhead
        | cons c0 rest =>
          rw [hcs] at hhead
          simp only [List.head?_cons, Option.some.injEq] at hhead
          have hmem : c0 ∈ s.cleanups := by rw [hcs]; simp
          have := hwf c0 hmem
          rw [hhead] at this
          simp at this
          omega
      | cons p rest =>
        rw [hsm] at hhead
        simp only [List.cons_append, List.head?_cons, Option.some.injEq] at hhead
        refine ⟨p, by simp, ?_⟩
        rw [hhead]
        exact ⟨rfl, rfl, rfl⟩

end SILGenProlog

namespace SILGenProlog

/-- C2: for a tuple-typed parameter whose lowered representation is loadable,
if every recursively materialized element carries no cleanup the result is a
single aggregated register value with no cleanup attached; otherwise every
element is brought to a fully owned state (elements with a cleanup are moved,
elements without one are copied) and the result is one aggregate value with
exactly one attached cleanup, the elements' own cleanups having been
consumed. -/
theorem c2_loadable_tuple_plus_one (fargs : Bool) (elts : List CanType)
    (ps ps1 : List SILParamInfo) (s s1 : SGState) (mv : ManagedValue)
    (hload : CanType.isLoadable (.tupleTy elts) = true)
    (h : visitArg fargs (.tupleTy elts) ps s = .ok (mv, ps1, s1)) :
    ∃ mvs s2, visitArgElems fargs elts ps s = .ok (mvs, ps1, s2) ∧
      (mvs.all (fun m => !m.hasCleanup) = true →
        mv = ManagedValue.forUnmanaged (.tupleVal (mvs.map (fun m => m.value))) ∧
        s1 = s2) ∧
      (mvs.all (fun m => !m.hasCleanup) = false →
        ∃ cid, mv.cleanup = some cid ∧
          mv.value = .tupleVal (mvs.map (fun m =>
            if m.hasCleanup then m.value else .copyVal m.value)) ∧
          s1.cleanups.head? = some ⟨cid, .releaseValue mv.value, true⟩ ∧
          (∀ m ∈ mvs, ∀ c0, m.cleanup = some c0 →
            ∀ c ∈ s1.cleanups, c.id = c0 → c.active = false)) := by
  rw [visitArg] at h
  cases hevs : visitArgElems fargs elts ps s with
  | error e => rw [hevs] at h; simp at h
  | ok r =>
    obtain ⟨mvs, ps1a, s2⟩ := r
    rw [hevs] at h
    simp only at h
    rw [hload] at h
    simp only [if_true] at h
    obtain ⟨E1, B1⟩ := visitArgElems_state fargs elts ps ps1a s s2 mvs hevs
    by_cases hall : mvs.all (fun m => !m.hasCleanup)
    · rw [hall] at h
      simp only [if_true, Except.ok.injEq, Prod.mk.injEq] at h
      obtain ⟨h1, h2, h3⟩ := h
      subst h2 h3
      refine ⟨mvs, s2, rfl, fun _ => ⟨h1.symm, rfl⟩, fun hf => absurd hall (by simp [hf])⟩
    · have hall2 : mvs.all (fun m => !m.hasCleanup) = false := by simpa using hall
      rw [hall2] at h
      simp only [Bool.false_eq_true, if_false] at h
      rcases hpv : plusOneElemValues mvs s2 with ⟨vals, s2p⟩
      rw [hpv] at h
      simp only [emitManagedRValueWithCleanup, pushCleanup, Except.ok.injEq,
        Prod.mk.injEq] at h
      obtain ⟨h1, h2, h3⟩ := h
      subst h1 h2 h3
      have P := plusOneElemValues_state s.nextCleanupId mvs s2 E1.1 B1
      rw [hpv] at P
      simp only at P
      obtain ⟨Pv, Pe, _, _, Pin⟩ := P
      refine ⟨mvs, s2, rfl, fun ht => absurd ht (by simp [hall2]), fun _ => ?_⟩
      refine ⟨s2p.nextCleanupId, rfl, by rw [Pv], by simp, ?_⟩
      intro m hm c0 hc0 c hc hcid
      rcases List.mem_cons.mp hc with rfl | hc
      · exfalso
        have hb := B1 m hm c0 hc0
        have := Pe.1
        simp at hcid
        omega
      · exact Pin m hm c0 hc0 c hc hcid

theorem getManagedValue_no_out (arg : SILValue) (t : CanType)
    (pinfo : SILParamInfo) (s : SGState)
    (hc : pinfo.convention ≠ .indirectOut) :
    getManagedValue arg t pinfo s ≠ .error .outConvention := by
  obtain ⟨ty0, conv⟩ := pinfo
  cases conv <;> simp [getManagedValue] <;> simp at hc

theorem visitTypeLeaf_no_out (fargs : Bool) (t : CanType)
    (ps : List SILParamInfo) (s : SGState) (hq : NoOutConvention ps) :
    visitTypeLeaf fargs t ps s ≠ .error .outConvention := by
  cases ps with
  | nil => simp [visitTypeLeaf]
  | cons pinfo rest =>
    simp only [visitTypeLeaf]
    by_cases he : CanType.eqb t pinfo.ty
    · rw [if_pos he]
      rw [show (createBBArg t s) = ((createBBArg t s).fst, (createBBArg t s).snd)
        from rfl]
      cases hg : getManagedValue (createBBArg t s).fst t pinfo (createBBArg t s).snd with
      | error e =>
        intro hcontra
        simp only [Except.error.injEq] at hcontra
        rw [hcontra] at hg
        exact getManagedValue_no_out _ _ _ _ (hq pinfo (by simp)) hg
      | ok r =>
        obtain ⟨mv0, s2⟩ := r
        simp only
        split <;> simp
    · rw [if_neg he]
      simp

mutual
theorem visitArg_no_out (fargs : Bool) (t : CanType) (ps : List SILParamInfo)
    (s : SGState) (hq : NoOutConvention ps) :
    visitArg fargs t ps s ≠ .error .outConvention := by
  cases t with
  | tupleTy elts =>
    rw [visitArg]
    cases hevs : visitArgElems fargs elts ps s with
    | error e =>
      intro hcontra
      simp only [Except.error.injEq] at hcontra
      rw [hcontra] at hevs
      exact visitArgElems_no_out fargs elts ps s hq hevs
    | ok r =>
      obtain ⟨mvs, ps1a, s1a⟩ := r
      simp only
      split
      · split
        · simp
        · rcases hpv : plusOneElemValues mvs s1a with ⟨vals, s2⟩
          simp [emitManagedRValueWithCleanup, pushCleanup]
      · rcases hta : emitTemporaryAllocation s1a with ⟨buf, s2⟩
        simp [emitManagedRValueWithCleanup, pushCleanup]
  | scalar i l tr =>
    simp only [visitArg]
    exact visitTypeLeaf_no_out fargs _ ps s hq
  | blockFn =>
    simp only [visitArg]
    exact visitTypeLeaf_no_out fargs _ ps s hq
  | optionalTy obj =>
    simp only [visitArg]
    exact visitTypeLeaf_no_out fargs _ ps s hq
  | inoutTy pointee =>
    simp only [visitArg]
    exact visitTypeLeaf_no_out fargs _ ps s hq
  | builtinValueBuffer =>
    simp only [visitArg]
    exact visitTypeLeaf_no_out fargs _ ps s hq
  | boxOf inner =>
    simp only [visitArg]
    exact visitTypeLeaf_no_out fargs _ ps s hq

theorem visitArgElems_no_out (fargs : Bool) (ts : List CanType)
    (ps : List SILParamInfo) (s : SGState) (hq : NoOutConvention ps) :
    visitArgElems fargs ts ps s ≠ .error .outConvention := by
  cases ts with
  | nil => simp [visitArgElems]
  | cons t rest =>
    rw [visitArgElems]
    cases hv : visitArg fargs t ps s with
    | error e =>
      intro hcontra
      simp only [Except.error.injEq] at hcontra
      rw [hcontra] at hv
      exact visitArg_no_out fargs t ps s hq hv
    | ok r =>
      obtain ⟨mv0, psA, sA⟩ := r
      simp only
      have hqA : NoOutConvention psA := by
        obtain ⟨_, hd⟩ := visitArg_consumes fargs t ps psA s sA mv0 hv
        intro pinfo hmem
        exact hq pinfo (List.drop_subset _ _ (hd ▸ hmem))
      cases hvs : visitArgElems fargs rest psA sA with
      | error e =>
        intro hcontra
        simp only [Except.error.injEq] at hcontra
        rw [hcontra] at hvs
        exact visitArgElems_no_out fargs rest psA sA hqA hvs
      | ok r2 =>
        obtain ⟨mvsB, psB, sB⟩ := r2
        simp
end

end SILGenProlog

namespace SILGenProlog

theorem makeArgumentIntoBinding_ps (vd : VarDecl) (ps ps1 : List SILParamInfo)
    (s s1 : SGState) (h : makeArgumentIntoBinding vd ps s = .ok (ps1, s1)) :
    ∃ argrv sm, visitArg true vd.ty ps s = .ok (argrv, ps1, sm) := by
  rw [makeArgumentIntoBinding] at h
  split at h
  case _ e heq => exact absurd h (by simp)
  case _ argrv ps1a sm heq =>
    have hps : ps1a = ps1 := by
      split at h
      · split at h
        · simp only [Except.ok.injEq, Prod.mk.injEq] at h
          exact h.1
        · simp only [Except.ok.injEq, Prod.mk.injEq] at h
          exact h.1
      · split at h
        · simp only [Except.ok.injEq, Prod.mk.injEq] at h
          exact h.1
        · simp only [Except.ok.injEq, Prod.mk.injEq] at h
          exact h.1
    rw [hps] at heq
    exact ⟨argrv, sm, heq⟩

mutual
theorem visitPattern_drops (p : Pattern) (ps ps1 : List SILParamInfo)
    (s s1 : SGState) (h : visitPattern p ps s = .ok (ps1, s1)) :
    ∃ n, ps1 = ps.drop n := by
  cases p with
  | paren sub =>
    rw [visitPattern] at h
    exact visitPattern_drops sub ps ps1 s s1 h
  | typed sub ty =>
    rw [visitPattern] at h
    exact visitPattern_drops sub ps ps1 s s1 h
  | varP sub =>
    rw [visitPattern] at h
    exact visitPattern_drops sub ps ps1 s s1 h
  | tupleP elts =>
    rw [visitPattern] at h
    exact visitPatternList_drops elts ps ps1 s s1 h
  | anyP => rw [visitPattern] at h; cases h
  | refutable => rw [visitPattern] at h; cases h
  | named vd =>
    rw [visitPattern] at h
    cases hn : vd.name with
    | none =>
      rw [hn] at h
      simp only at h
      cases hv : visitArg true vd.ty ps s with
      | error e => rw [hv] at h; simp at h
      | ok r =>
        obtain ⟨mv, ps1a, sm⟩ := r
        rw [hv] at h
        simp only [Except.ok.injEq, Prod.mk.injEq] at h
        obtain ⟨h1, _⟩ := h
        subst h1
        obtain ⟨_, hd⟩ := visitArg_consumes true vd.ty ps ps1a s sm mv hv
        exact ⟨_, hd⟩
    | some nm2 =>
      rw [hn] at h
      simp only at h
      obtain ⟨argrv, sm, hv⟩ := makeArgumentIntoBinding_ps vd ps ps1 s s1 h
      obtain ⟨_, hd⟩ := visitArg_consumes true vd.ty ps ps1 s sm argrv hv
      exact ⟨_, hd⟩

theorem visitPatternList_drops (pats : List Pattern) (ps ps1 : List SILParamInfo)
    (s s1 : SGState) (h : visitPatternList pats ps s = .ok (ps1, s1)) :
    ∃ n, ps1 = ps.drop n := by
  cases pats with
  | nil =>
    rw [visitPatternList] at h
    simp only [Except.ok.injEq, Prod.mk.injEq] at h
    exact ⟨0, by simp [h.1.symm]⟩
  | cons p rest =>
    rw [visitPatternList] at h
    cases hv : visitPattern p ps s with
    | error e => rw [hv] at h; simp at h
    | ok r =>
      obtain ⟨psA, sA⟩ := r
      rw [hv] at h
      simp only at h
      obtain ⟨n1, hd1⟩ := visitPattern_drops p ps psA s sA hv
      obtain ⟨n2, hd2⟩ := visitPatternList_drops rest psA ps1 sA s1 h
      exact ⟨n2 + n1, by rw [hd2, hd1, List.drop_drop, Nat.add_comm]⟩
end

theorem makeArgumentIntoBinding_no_out (vd : VarDecl) (ps : List SILParamInfo)
    (s : SGState) (hq : NoOutConvention ps) :
    makeArgumentIntoBinding vd ps s ≠ .error .outConvention := by
  rw [makeArgumentIntoBinding]
  cases hv : visitArg true vd.ty ps s with
  | error e =>
    intro hcontra
    simp only [Except.error.injEq] at hcontra
    rw [hcontra] at hv
    exact visitArg_no_out true vd.ty ps s hq hv
  | ok r =>
    obtain ⟨argrv, ps1a, sm⟩ := r
    simp only
    split
    · split
      · simp
      · simp
    · split
      · simp
      · simp

mutual
theorem visitPattern_no_out (p : Pattern) (ps : List SILParamInfo) (s : SGState)
    (hq : NoOutConvention ps) :
    visitPattern p ps s ≠ .error .outConvention := by
  cases p with
  | paren sub =>
    rw [visitPattern]
    exact visitPattern_no_out sub ps s hq
  | typed sub ty =>
    rw [visitPattern]
    exact visitPattern_no_out sub ps s hq
  | varP sub =>
    rw [visitPattern]
    exact visitPattern_no_out sub ps s hq
  | tupleP elts =>
    rw [visitPattern]
    exact visitPatternList_no_out elts ps s hq
  | anyP => simp [visitPattern]
  | refutable => simp [visitPattern]
  | named vd =>
    rw [visitPattern]
    cases hn : vd.name with
    | none =>
      simp only
      cases hv : visitArg true vd.ty ps s with
      | error e =>
        intro hcontra
        simp only [Except.error.injEq] at hcontra
        rw [hcontra] at hv
        exact visitArg_no_out true vd.ty ps s hq hv
      | ok r =>
        obtain ⟨mv, ps1a, sm⟩ := r
        simp
    | some nm2 =>
      simp only
      exact makeArgumentIntoBinding_no_out vd ps s hq

theorem visitPatternList_no_out (pats : List Pattern) (ps : List SILParamInfo)
    (s : SGState) (hq : NoOutConvention ps) :
    visitPatternList pats ps s ≠ .error .outConvention := by
  cases pats with
  | nil => simp [visitPatternList]
  | cons p rest =>
    rw [visitPatternList]
    cases hv : visitPattern p ps s with
    | error e =>
      intro hcontra
      simp only [Except.error.injEq] at hcontra
      rw [hcontra] at hv
      exact visitPattern_no_out p ps s hq hv
    | ok r =>
      obtain ⟨psA, sA⟩ := r
      simp only
      have hqA : NoOutConvention psA := by
        obtain ⟨n, hd⟩ := visitPattern_drops p ps psA s sA hv
        intro pinfo hmem
        exact hq pinfo (List.drop_subset _ _ (hd ▸ hmem))
      exact visitPatternList_no_out rest psA sA hqA
end

/-- C10: the name-binding visitor discards a leading indirect-result
descriptor at construction, before any argument is materialized; and on a
well-formed descriptor queue (no out-convention slot after that discard) the
prologue can never hit the ownership resolver's fatal out-convention branch. -/
theorem c10_out_convention_unreachable (fparams : List SILParamInfo)
    (patterns : List Pattern) (resultType : CanType) (s : SGState)
    (hq : NoOutConvention (initialParamQueue fparams)) :
    (∀ (t0 : CanType) (rest : List SILParamInfo),
       initialParamQueue (⟨t0, .indirectOut⟩ :: rest) = rest) ∧
    emitProlog fparams patterns resultType s ≠ .error .outConvention := by
  refine ⟨fun t0 rest => by simp [initialParamQueue], ?_⟩
  rw [emitProlog]
  exact visitPatternList_no_out patterns.reverse (initialParamQueue fparams) _ hq

end SILGenProlog

namespace SILGenProlog

/-- Witness for C2 (scenario B): a 2-tuple parameter with one guaranteed and
one owned element yields one aggregate cleanup, the guaranteed element having
been copied and the owned element moved. -/
theorem c2_loadable_tuple_plus_one_witness :
    CanType.isLoadable (.tupleTy [.scalar 0 true false, .scalar 1 true false]) = true ∧
    visitArg true (.tupleTy [.scalar 0 true false, .scalar 1 true false])
      [⟨.scalar 0 true false, .directGuaranteed⟩, ⟨.scalar 1 true false, .directOwned⟩]
      {} =
      .ok (⟨.tupleVal [.copyVal (.arg 0), .arg 1], some 2, false⟩, [],
        SGState.mk 2 0 3 [(0, .scalar 0 true false), (1, .scalar 1 true false)]
          [⟨2, .releaseValue (.tupleVal [.copyVal (.arg 0), .arg 1]), true⟩,
           ⟨1, .releaseValue (.copyVal (.arg 0)), false⟩,
           ⟨0, .releaseValue (.arg 1), false⟩]
          [] [.copyIntoAddr (.arg 0) (.copyVal (.arg 0))] none) ∧
    (∃ mvs s2,
      visitArgElems true [.scalar 0 true false, .scalar 1 true false]
        [⟨.scalar 0 true false, .directGuaranteed⟩, ⟨.scalar 1 true false, .directOwned⟩]
        {} = .ok (mvs, [], s2) ∧
      (mvs.all (fun m => !m.hasCleanup) = true →
        (⟨.tupleVal [.copyVal (.arg 0), .arg 1], some 2, false⟩ : ManagedValue)
          = ManagedValue.forUnmanaged (.tupleVal (mvs.map (fun m => m.value))) ∧
        SGState.mk 2 0 3 [(0, .scalar 0 true false), (1, .scalar 1 true false)]
          [⟨2, .releaseValue (.tupleVal [.copyVal (.arg 0), .arg 1]), true⟩,
           ⟨1, .releaseValue (.copyVal (.arg 0)), false⟩,
           ⟨0, .releaseValue (.arg 1), false⟩]
          [] [.copyIntoAddr (.arg 0) (.copyVal (.arg 0))] none = s2) ∧
      (mvs.all (fun m => !m.hasCleanup) = false →
        ∃ cid,
          (⟨.tupleVal [.copyVal (.arg 0), .arg 1], some 2, false⟩ : ManagedValue).cleanup
            = some cid ∧
          (⟨.tupleVal [.copyVal (.arg 0), .arg 1], some 2, false⟩ : ManagedValue).value
            = .tupleVal (mvs.map (fun m =>
                if m.hasCleanup then m.value else .copyVal m.value)) ∧
          (SGState.mk 2 0 3 [(0, .scalar 0 true false), (1, .scalar 1 true false)]
            [⟨2, .releaseValue (.tupleVal [.copyVal (.arg 0), .arg 1]), true⟩,
             ⟨1, .releaseValue (.copyVal (.arg 0)), false⟩,
             ⟨0, .releaseValue (.arg 1), false⟩]
            [] [.copyIntoAddr (.arg 0) (.copyVal (.arg 0))] none).cleanups.head?
            = some ⟨cid, .releaseValue (⟨.tupleVal [.copyVal (.arg 0), .arg 1],
                some 2, false⟩ : ManagedValue).value, true⟩ ∧
          (∀ m ∈ mvs, ∀ c0, m.cleanup = some c0 →
            ∀ c ∈ (SGState.mk 2 0 3
              [(0, .scalar 0 true false), (1, .scalar 1 true false)]
              [⟨2, .releaseValue (.tupleVal [.copyVal (.arg 0), .arg 1]), true⟩,
               ⟨1, .releaseValue (.copyVal (.arg 0)), false⟩,
               ⟨0, .releaseValue (.arg 1), false⟩]
              [] [.copyIntoAddr (.arg 0) (.copyVal (.arg 0))] none).cleanups,
              c.id = c0 → c.active = false))) :=
  ⟨rfl, rfl, c2_loadable_tuple_plus_one true _ _ _ {} _ _ rfl rfl⟩

end SILGenProlog

namespace SILGenProlog

/-- Witness for C4 (scenario C): one in-out parameter of a trivially-copyable
scalar type gets one local shadow, one write-back cleanup, and the shadow is
the binding seen by later reads. -/
theorem c4_inout_shadow_writeback_witness :
    makeArgumentIntoBinding ⟨0, some 0, .inoutTy (.scalar 1 true true), false, true⟩
      [⟨.inoutTy (.scalar 1 true true), .indirectInout⟩] {} =
      .ok ([], SGState.mk 1 1 2 [(0, .inoutTy (.scalar 1 true true))]
        [⟨1, .writeBackToInOut 0 (.arg 0), true⟩,
         ⟨0, .destroyValue (.alloc 0), true⟩]
        [(0, ⟨.alloc 0, none⟩)]
        [.allocStack 0, .copyAddr (.arg 0) (.alloc 0) false true] none) ∧
    (∃ argrv sm,
      visitArg true (.inoutTy (.scalar 1 true true))
        [⟨.inoutTy (.scalar 1 true true), .indirectInout⟩] {} = .ok (argrv, [], sm) ∧
      argrv.value = .arg 0 ∧
      ((.scalar 1 true true : CanType) = .builtinValueBuffer →
        SGState.mk 1 1 2 [(0, .inoutTy (.scalar 1 true true))]
          [⟨1, .writeBackToInOut 0 (.arg 0), true⟩,
           ⟨0, .destroyValue (.alloc 0), true⟩]
          [(0, ⟨.alloc 0, none⟩)]
          [.allocStack 0, .copyAddr (.arg 0) (.alloc 0) false true] none
          = bindVarLoc 0 ⟨argrv.value, none⟩ sm ∧
        lookupVarLoc 0 (SGState.mk 1 1 2 [(0, .inoutTy (.scalar 1 true true))]
          [⟨1, .writeBackToInOut 0 (.arg 0), true⟩,
           ⟨0, .destroyValue (.alloc 0), true⟩]
          [(0, ⟨.alloc 0, none⟩)]
          [.allocStack 0, .copyAddr (.arg 0) (.alloc 0) false true] none)
          = some ⟨argrv.value, none⟩) ∧
      ((.scalar 1 true true : CanType) ≠ .builtinValueBuffer →
        lookupVarLoc 0 (SGState.mk 1 1 2 [(0, .inoutTy (.scalar 1 true true))]
          [⟨1, .writeBackToInOut 0 (.arg 0), true⟩,
           ⟨0, .destroyValue (.alloc 0), true⟩]
          [(0, ⟨.alloc 0, none⟩)]
          [.allocStack 0, .copyAddr (.arg 0) (.alloc 0) false true] none)
          = some ⟨.alloc sm.nextAllocId, none⟩ ∧
        (SGState.mk 1 1 2 [(0, .inoutTy (.scalar 1 true true))]
          [⟨1, .writeBackToInOut 0 (.arg 0), true⟩,
           ⟨0, .destroyValue (.alloc 0), true⟩]
          [(0, ⟨.alloc 0, none⟩)]
          [.allocStack 0, .copyAddr (.arg 0) (.alloc 0) false true] none).nextAllocId
          = sm.nextAllocId + 1 ∧
        Instr.copyAddr argrv.value (.alloc sm.nextAllocId) false true ∈
          (SGState.mk 1 1 2 [(0, .inoutTy (.scalar 1 true true))]
            [⟨1, .writeBackToInOut 0 (.arg 0), true⟩,
             ⟨0, .destroyValue (.alloc 0), true⟩]
            [(0, ⟨.alloc 0, none⟩)]
            [.allocStack 0, .copyAddr (.arg 0) (.alloc 0) false true] none).instrs ∧
        (SGState.mk 1 1 2 [(0, .inoutTy (.scalar 1 true true))]
          [⟨1, .writeBackToInOut 0 (.arg 0), true⟩,
           ⟨0, .destroyValue (.alloc 0), true⟩]
          [(0, ⟨.alloc 0, none⟩)]
          [.allocStack 0, .copyAddr (.arg 0) (.alloc 0) false true] none).cleanups =
          ⟨sm.nextCleanupId + 1, .writeBackToInOut 0 argrv.value, true⟩ ::
          ⟨sm.nextCleanupId, .destroyValue (.alloc sm.nextAllocId), true⟩ ::
          sm.cleanups) ∧
      (∀ sig loc, lookupVarLoc 0 sig = some loc →
        emitCleanupAction (.writeBackToInOut 0 argrv.value) sig =
          appendInstr (.copyAddr loc.value argrv.value false false) sig)) :=
  ⟨rfl, c4_inout_shadow_writeback ⟨0, some 0, .inoutTy (.scalar 1 true true), false, true⟩
    (.scalar 1 true true) _ _ {} _ rfl rfl⟩

/-- Witness for C6: a discard binding of an owned scalar releases the value
at the discard site and leaves the cleanup stack as it was. -/
theorem c6_discard_immediate_cleanup_witness :
    CleanupIdsBounded {} ∧
    (SGState.mk 1 0 1 [(0, .scalar 1 true false)] [] []
      [.releaseValue (.arg 0)] none).cleanups = SGState.cleanups {} ∧
    (SGState.mk 1 0 1 [(0, .scalar 1 true false)] [] []
      [.releaseValue (.arg 0)] none).varLocs = SGState.varLocs {} ∧
    (∃ mv sm pre,
      visitArg true (.scalar 1 true false) [⟨.scalar 1 true false, .directOwned⟩] {}
        = .ok (mv, [], sm) ∧
      sm.cleanups = pre ++ SGState.cleanups {} ∧
      SGState.mk 1 0 1 [(0, .scalar 1 true false)] [] []
        [.releaseValue (.arg 0)] none
        = { emitActiveCleanups pre sm with cleanups := SGState.cleanups {} } ∧
      (∀ cid, mv.cleanup = some cid →
        ∃ c ∈ pre, c.id = cid ∧ c.active = true ∧ c.kind = .releaseValue mv.value)) := by
  have h := c6_discard_immediate_cleanup ⟨0, none, .scalar 1 true false, true, false⟩
    [⟨.scalar 1 true false, .directOwned⟩] [] {}
    (SGState.mk 1 0 1 [(0, .scalar 1 true false)] [] [] [.releaseValue (.arg 0)] none)
    (by intro c hc; cases hc) rfl rfl
  exact ⟨(by intro c hc; cases hc), h⟩

/-- Witness for C7: an immutable named scalar parameter is bound directly to
the materialized value with its release cleanup left in place and no copy. -/
theorem c7_named_binding_ownership_witness :
    (∀ pointee : CanType, (.scalar 1 true false : CanType) ≠ .inoutTy pointee) ∧
    (∃ argrv sm,
      visitArg true (.scalar 1 true false) [⟨.scalar 1 true false, .directOwned⟩] {}
        = .ok (argrv, [], sm) ∧
      (true = true →
        lookupVarLoc 0 (SGState.mk 1 0 1 [(0, .scalar 1 true false)]
          [⟨0, .releaseValue (.arg 0), true⟩] [(0, ⟨.arg 0, none⟩)]
          [.debugValue (.arg 0) false] none) = some ⟨argrv.value, none⟩ ∧
        (SGState.mk 1 0 1 [(0, .scalar 1 true false)]
          [⟨0, .releaseValue (.arg 0), true⟩] [(0, ⟨.arg 0, none⟩)]
          [.debugValue (.arg 0) false] none).cleanups = sm.cleanups ∧
        (SGState.mk 1 0 1 [(0, .scalar 1 true false)]
          [⟨0, .releaseValue (.arg 0), true⟩] [(0, ⟨.arg 0, none⟩)]
          [.debugValue (.arg 0) false] none).nextAllocId = sm.nextAllocId ∧
        (SGState.mk 1 0 1 [(0, .scalar 1 true false)]
          [⟨0, .releaseValue (.arg 0), true⟩] [(0, ⟨.arg 0, none⟩)]
          [.debugValue (.arg 0) false] none).instrs = sm.instrs ++
          [.debugValue argrv.value (!(.scalar 1 true false : CanType).isLoadable)]) ∧
      (true = false →
        lookupVarLoc 0 (SGState.mk 1 0 1 [(0, .scalar 1 true false)]
          [⟨0, .releaseValue (.arg 0), true⟩] [(0, ⟨.arg 0, none⟩)]
          [.debugValue (.arg 0) false] none) = some ⟨.alloc sm.nextAllocId, none⟩ ∧
        (argrv.hasCleanup = true →
          (∀ cid, argrv.cleanup = some cid →
            ∀ c ∈ (SGState.mk 1 0 1 [(0, .scalar 1 true false)]
              [⟨0, .releaseValue (.arg 0), true⟩] [(0, ⟨.arg 0, none⟩)]
              [.debugValue (.arg 0) false] none).cleanups,
              c.id = cid → c.active = false) ∧
          (SGState.mk 1 0 1 [(0, .scalar 1 true false)]
            [⟨0, .releaseValue (.arg 0), true⟩] [(0, ⟨.arg 0, none⟩)]
            [.debugValue (.arg 0) false] none).instrs = sm.instrs ++
            [.allocStack sm.nextAllocId, .moveInto argrv.value (.alloc sm.nextAllocId)]) ∧
        (argrv.hasCleanup = false →
          (SGState.mk 1 0 1 [(0, .scalar 1 true false)]
            [⟨0, .releaseValue (.arg 0), true⟩] [(0, ⟨.arg 0, none⟩)]
            [.debugValue (.arg 0) false] none).cleanups =
            ⟨sm.nextCleanupId, .destroyValue (.alloc sm.nextAllocId), true⟩ ::
            sm.cleanups ∧
          (SGState.mk 1 0 1 [(0, .scalar 1 true false)]
            [⟨0, .releaseValue (.arg 0), true⟩] [(0, ⟨.arg 0, none⟩)]
            [.debugValue (.arg 0) false] none).instrs = sm.instrs ++
            [.allocStack sm.nextAllocId,
             .copyIntoAddr argrv.value (.alloc sm.nextAllocId)]))) :=
  ⟨(by intro p hc; cases hc),
   c7_named_binding_ownership ⟨0, some 0, .scalar 1 true false, true, false⟩
     _ _ {} _ (by intro p hc; cases hc) rfl⟩

/-- Witness for C9: forwarding a tuple-and-scalar parameter list produces
three destructured raw arguments in pattern order and changes nothing else. -/
theorem c9_forwarding_no_effects_witness :
    forwardVisit (.tupleP [.named ⟨0, some 0,
        .tupleTy [.scalar 0 true true, .scalar 1 true true], true, false⟩,
      .named ⟨1, some 1, .scalar 2 true true, true, false⟩]) [] {} =
      .ok ([.arg 0, .arg 1, .arg 2],
        SGState.mk 3 0 0 [(0, .scalar 0 true true), (1, .scalar 1 true true),
          (2, .scalar 2 true true)] [] [] [] none) ∧
    ([.arg 0, .arg 1, .arg 2] : List SILValue) =
      [] ++ (List.range' (SGState.nextValueId {})
        (forwardCount (.tupleP [.named ⟨0, some 0,
          .tupleTy [.scalar 0 true true, .scalar 1 true true], true, false⟩,
         .named ⟨1, some 1, .scalar 2 true true, true, false⟩]))).map SILValue.arg ∧
    SGState.mk 3 0 0 [(0, .scalar 0 true true), (1, .scalar 1 true true),
        (2, .scalar 2 true true)] [] [] [] none =
      { ({} : SGState) with
          nextValueId := SGState.nextValueId {} +
            forwardCount (.tupleP [.named ⟨0, some 0,
              .tupleTy [.scalar 0 true true, .scalar 1 true true], true, false⟩,
             .named ⟨1, some 1, .scalar 2 true true, true, false⟩]),
          blockArgs := SGState.blockArgs {} ++
            fwdEntries (.tupleP [.named ⟨0, some 0,
              .tupleTy [.scalar 0 true true, .scalar 1 true true], true, false⟩,
             .named ⟨1, some 1, .scalar 2 true true, true, false⟩])
              (SGState.nextValueId {}) } ∧
    (SGState.mk 3 0 0 [(0, .scalar 0 true true), (1, .scalar 1 true true),
        (2, .scalar 2 true true)] [] [] [] none).cleanups = SGState.cleanups {} ∧
    (SGState.mk 3 0 0 [(0, .scalar 0 true true), (1, .scalar 1 true true),
        (2, .scalar 2 true true)] [] [] [] none).varLocs = SGState.varLocs {} ∧
    (SGState.mk 3 0 0 [(0, .scalar 0 true true), (1, .scalar 1 true true),
        (2, .scalar 2 true true)] [] [] [] none).instrs = SGState.instrs {} := by
  have h := c9_forwarding_no_effects (.tupleP [.named ⟨0, some 0,
      .tupleTy [.scalar 0 true true, .scalar 1 true true], true, false⟩,
    .named ⟨1, some 1, .scalar 2 true true, true, false⟩]) []
    [.arg 0, .arg 1, .arg 2] {}
    (SGState.mk 3 0 0 [(0, .scalar 0 true true), (1, .scalar 1 true true),
      (2, .scalar 2 true true)] [] [] [] none) rfl
  exact ⟨rfl, h.1, h.2.1, h.2.2.1, h.2.2.2.1, h.2.2.2.2⟩

/-- Witness for C10: a lowered parameter list with a leading indirect-result
descriptor followed by an owned descriptor is well formed after the discard,
and the prologue does not hit the out-convention fatal branch. -/
theorem c10_out_convention_unreachable_witness :
    NoOutConvention (initialParamQueue
      [⟨.scalar 0 true true, .indirectOut⟩, ⟨.scalar 0 true true, .directOwned⟩]) ∧
    ((∀ (t0 : CanType) (rest : List SILParamInfo),
        initialParamQueue (⟨t0, .indirectOut⟩ :: rest) = rest) ∧
     emitProlog [⟨.scalar 0 true true, .indirectOut⟩, ⟨.scalar 0 true true, .directOwned⟩]
        [.named ⟨0, some 0, .scalar 0 true true, true, false⟩]
        (.scalar 9 true true) {} ≠ .error .outConvention) := by
  have hq : NoOutConvention (initialParamQueue
      [⟨.scalar 0 true true, .indirectOut⟩, ⟨.scalar 0 true true, .directOwned⟩]) := by
    intro pinfo hmem
    simp only [initialParamQueue] at hmem
    simp only [reduceIte, List.mem_singleton] at hmem
    subst hmem
    simp
  exact ⟨hq, c10_out_convention_unreachable _ _ _ {} hq⟩

end SILGenProlog
